import Mathlib

/-!
# Verification of the fm-index crate core

This file gives a shallow embedding of the FM-index backend
(`src/fm_index.rs`) of the `fm-index` crate and proves or refutes the
frozen specification claims about it.

Symbols are modelled as already-converted dense codes (`Nat`); the
sentinel is code `0`.  Components of the crate whose sources are not in
the provided snapshot (`sais.rs`, `wavelet_matrix.rs`, `suffix_array.rs`,
`converter.rs`) are modelled from the specification, as indicated in
their doc comments.
-/

set_option maxHeartbeats 1000000

/-- Strict lexicographic order on lists of naturals.  `listLt x y` is
true iff `x` comes strictly before `y` in lexicographic order, where a
proper prefix is strictly less. -/
def listLt : List Nat → List Nat → Bool
  | _, [] => false
  | [], _ :: _ => true
  | a :: x, b :: y => decide (a < b) || (a == b && listLt x y)

/-- Lexicographic `≤` on lists of naturals. -/
def listLe : List Nat → List Nat → Bool
  | [], _ => true
  | _ :: _, [] => false
  | a :: x, b :: y => decide (a < b) || (a == b && listLe x y)

/-- Insert `x` into `l` keeping it sorted with respect to `le`. -/
def insertLe {α : Type} (le : α → α → Bool) (x : α) : List α → List α
  | [] => [x]
  | y :: ys => if le x y then x :: y :: ys else y :: insertLe le x ys

/-- Insertion sort with respect to `le`. -/
def isortLe {α : Type} (le : α → α → Bool) : List α → List α
  | [] => []
  | x :: xs => insertLe le x (isortLe le xs)

/-- Modelled from the spec: the crate builds the suffix array with the
SA-IS algorithm in `sais.rs`, which is not part of the provided sources.
Per the spec (section 3), the suffix array is the permutation of
`[0, n)` such that the suffixes `T[SA[i]..]` are lexicographically
sorted; we realise it by sorting the positions by their suffixes. -/
def sais (t : List Nat) : List Nat :=
  isortLe (fun i j => listLe (t.drop i) (t.drop j)) (List.range t.length)

/-- Modelled from the spec: `sais::count_chars` / `sais::get_bucket_start_pos`
are not part of the provided sources.  Per the spec (section 3), the
character-start table has `C[c] =` number of positions of the text whose
code is `< c`, for `c` in `[0, σ]`. -/
def get_bucket_start_pos (t : List Nat) (σ : Nat) : List Nat :=
  (List.range (σ + 1)).map (fun c => t.countP (fun x => decide (x < c)))

/-- The character written into the Burrows-Wheeler column for the row
holding suffix-array value `k` (`fm_index.rs`, lines 34-40): the code
preceding position `k` of the text, or `0` for `k = 0`. -/
def bwtOf (t : List Nat) (k : Nat) : Nat :=
  if 0 < k then t.getD (k - 1) 0 else 0

namespace WaveletMatrix

/-- Modelled from the spec: `wavelet_matrix.rs` is not part of the
provided sources.  Per the spec (section 4.C), `access(i)` returns the
`i`-th code of the stored sequence; we store the sequence directly. -/
def access (l : List Nat) (i : Nat) : Nat := l.getD i 0

/-- Modelled from the spec: `rank(c, i)` is the number of occurrences of
code `c` in positions `[0, i)` of the stored sequence (spec 4.C). -/
def rank (l : List Nat) (c i : Nat) : Nat :=
  (l.take i).countP (fun x => x == c)

/-- Modelled from the spec: `select(c, k)` is the position of the
`(k+1)`-th occurrence of code `c` in the stored sequence (spec 4.C). -/
def select (l : List Nat) (c k : Nat) : Nat :=
  ((List.range l.length).filter (fun j => l.getD j 0 == c)).getD k 0

end WaveletMatrix

/-- Modelled from the spec: `suffix_array.rs` is not part of the provided
sources.  Per the spec (section 4.D), a suffix-order sampled array at
level `k` answers `get(i) = SA[i]` iff `SA[i] mod 2^k = 0` and is missing
otherwise; we keep the suffix array and the level and apply that rule. -/
structure SuffixOrderSampledArray where
  sa : List Nat
  level : Nat

/-- Lookup in the sampled suffix array (spec 4.D). -/
def SuffixOrderSampledArray.get (s : SuffixOrderSampledArray) (i : Nat) : Option Nat :=
  let v := s.sa.getD i 0
  if v % 2 ^ s.level = 0 then some v else none

/-- The FM-index backend (`fm_index.rs`, lines 10-20): the
Burrows-Wheeler column stored in a wavelet matrix, the bucket-start
table `occs`, and the sampled suffix array.  The converter is modelled
as the identity on dense codes with alphabet size `σ` kept alongside, so
text and patterns are sequences of codes. -/
structure FMIndex where
  bw : List Nat
  occs : List Nat
  suffix_array : SuffixOrderSampledArray

/-- Construction of the index (`fm_index.rs`, lines 28-50): compute the
bucket starts and the suffix array, derive the Burrows-Wheeler column
`bw[i] = text[sa[i] - 1]` (or the zero code when `sa[i] = 0`), and sample
the suffix array at the given level.  `σ` is `converter.len()`. -/
def FMIndex.new (text : List Nat) (σ level : Nat) : FMIndex :=
  let sa := sais text
  { bw := sa.map (bwtOf text)
    occs := get_bucket_start_pos text σ
    suffix_array := { sa := sa, level := level } }

/-- `fm_index.rs`, lines 79-81. -/
def FMIndex.len (fm : FMIndex) : Nat := fm.bw.length

/-- `fm_index.rs`, lines 69-72: `lf_map(c, i) = occs[c] + bw.rank(c, i)`.
The vector access `occs[c]` is total here (`getD`); the partial variant
modelling the bounds panic is `FMIndex.lf_map_checked` below. -/
def FMIndex.lf_map (fm : FMIndex) (c i : Nat) : Nat :=
  fm.occs.getD c 0 + WaveletMatrix.rank fm.bw c i

/-- `fm_index.rs`, lines 74-77: `inverse_lf_map(c, i) = bw.select(c, i - occs[c])`. -/
def FMIndex.inverse_lf_map (fm : FMIndex) (c i : Nat) : Nat :=
  WaveletMatrix.select fm.bw c (i - fm.occs.getD c 0)

/-- The binary-search loop of `get_f_char` (`fm_index.rs`, lines 56-65). -/
def gfcLoop (occs : List Nat) (i s e : Nat) : Nat :=
  if 1 < e - s then
    let m := s + (e - s) / 2
    if occs.getD m 0 ≤ i then gfcLoop occs i m e else gfcLoop occs i s m
  else s
termination_by e - s
decreasing_by
  · omega
  · omega

/-- `fm_index.rs`, lines 52-67: binary search for the greatest `c` with
`occs[c] ≤ i`. -/
def FMIndex.get_f_char (fm : FMIndex) (i : Nat) : Nat :=
  gfcLoop fm.occs i 0 fm.occs.length

/-- A search cursor (`fm_index.rs`, lines 130-139): the half-open row
range `[s, e)` together with the accumulated pattern.  The borrowed
index is passed explicitly to the operations. -/
structure Search where
  s : Nat
  e : Nat
  pattern : List Nat

/-- The body of the backward-search loop (`fm_index.rs`, lines 163-170):
fold the reversed pattern over the range, stopping early when the range
becomes empty. -/
def backwardLoop (fm : FMIndex) : Nat → Nat → List Nat → Nat × Nat
  | s, e, [] => (s, e)
  | s, e, c :: rest =>
    let s1 := fm.lf_map c s
    let e1 := fm.lf_map c e
    if s1 = e1 then (s1, e1) else backwardLoop fm s1 e1 rest

/-- `fm_index.rs`, lines 159-179 (`Search::search_backward`): narrow the
range by the pattern processed from its last symbol, and prepend the
pattern to the accumulated one. -/
def Search.search_backward (fm : FMIndex) (cur : Search) (pattern : List Nat) : Search :=
  let p := backwardLoop fm cur.s cur.e pattern.reverse
  { s := p.1, e := p.2, pattern := pattern ++ cur.pattern }

/-- `fm_index.rs`, lines 155-157. -/
def Search.get_range (cur : Search) : Nat × Nat := (cur.s, cur.e)

/-- `fm_index.rs`, lines 181-183: `count() = e - s`. -/
def Search.count (cur : Search) : Nat := cur.e - cur.s

/-- `fm_index.rs`, lines 83-88 (`FMIndex::search_backward`): start from
the full range `[0, len)` with an empty pattern. -/
def FMIndex.search_backward (fm : FMIndex) (pattern : List Nat) : Search :=
  Search.search_backward fm { s := 0, e := fm.len, pattern := [] } pattern

/-- The loop of `get_sa` (`fm_index.rs`, lines 113-127) with explicit
fuel standing in for the unbounded Rust `loop`; `none` models
non-termination within the given fuel.  Each iteration asks the sampled
suffix array and otherwise takes one LF step. -/
def getSaLoop (fm : FMIndex) : Nat → Nat → Nat → Option Nat
  | 0, _, _ => none
  | fuel + 1, i, steps =>
    match fm.suffix_array.get i with
    | some sa => some ((sa + steps) % fm.bw.length)
    | none => getSaLoop fm fuel (fm.lf_map (WaveletMatrix.access fm.bw i) i) (steps + 1)

/-- `fm_index.rs`, lines 113-127: recover the suffix-array value of row
`i`.  Fuel `len` suffices (proved below for claim C10). -/
def FMIndex.get_sa (fm : FMIndex) (i : Nat) : Nat :=
  (getSaLoop fm fm.len i 0).getD 0

/-- `fm_index.rs`, lines 193-199 (`Search::locate`): one suffix-array
lookup per row `k` of `[s, e)`, in increasing row order. -/
def Search.locate (fm : FMIndex) (cur : Search) : List Nat :=
  (List.range (cur.e - cur.s)).map (fun j => fm.get_sa (cur.s + j))

/-- `fm_index.rs`, line 70: the access `self.occs[c as usize]` panics
when `c` is at least the table length; this variant models that panic
with `none`. -/
def FMIndex.lf_map_checked (fm : FMIndex) (c i : Nat) : Option Nat :=
  if c < fm.occs.length then some (fm.occs.getD c 0 + WaveletMatrix.rank fm.bw c i) else none

/-- The backward-search loop with the indexing panic made explicit. -/
def backwardLoopChecked (fm : FMIndex) : Nat → Nat → List Nat → Option (Nat × Nat)
  | s, e, [] => some (s, e)
  | s, e, c :: rest =>
    match fm.lf_map_checked c s, fm.lf_map_checked c e with
    | some s1, some e1 => if s1 = e1 then some (s1, e1) else backwardLoopChecked fm s1 e1 rest
    | _, _ => none

/-- `FMIndex::search_backward` with the indexing panic made explicit. -/
def FMIndex.search_backward_checked (fm : FMIndex) (pattern : List Nat) : Option Search :=
  (backwardLoopChecked fm 0 fm.len pattern.reverse).map
    (fun p => { s := p.1, e := p.2, pattern := pattern })

/-- One step of the backward iterator (`fm_index.rs`, lines 217-221):
read the Burrows-Wheeler character of the current row, move to `lf_map`
of it, and yield the character.  The `Option` is the return type of
Rust's `Iterator::next`; the code always returns `Some`. -/
def BackwardIterator.next (fm : FMIndex) (i : Nat) : Option (Nat × Nat) :=
  let c := WaveletMatrix.access fm.bw i
  some (c, fm.lf_map c i)

/-- One step of the forward iterator (`fm_index.rs`, lines 239-243). -/
def ForwardIterator.next (fm : FMIndex) (i : Nat) : Option (Nat × Nat) :=
  let c := fm.get_f_char i
  some (c, fm.inverse_lf_map c i)

/-- The LF map as used by the backward iterator and `get_sa`:
`lf_map(bw.access(i), i)`. -/
def FMIndex.LF (fm : FMIndex) (i : Nat) : Nat :=
  fm.lf_map (WaveletMatrix.access fm.bw i) i

/-- The FL map as used by the forward iterator:
`inverse_lf_map(get_f_char(i), i)`. -/
def FMIndex.FL (fm : FMIndex) (i : Nat) : Nat :=
  fm.inverse_lf_map (fm.get_f_char i) i

/-- The number of occurrences of `p` in `t` as counted by a naive
scanner: the positions `i < |t|` where `p` is a prefix of `t[i..]`. -/
def naiveOcc (t p : List Nat) : Nat :=
  (List.range t.length).countP (fun i => p.isPrefixOf (t.drop i))

/-- Modelled from the spec: the frontend constructor
(`FMIndexBackend::create`, called from `fm_index_frontend.rs` lines
59-63) is not part of the provided sources.  Per the spec (section 4.E,
step 1): ensure the text ends with the sentinel symbol; otherwise append
it. -/
def ensure_sentinel (t : List Nat) : List Nat :=
  if t.getLast? = some 0 then t else t ++ [0]

/-- Modelled from the spec: the frontend `FMIndex::new`
(`fm_index_frontend.rs`, lines 59-63) builds the backend after ensuring
the sentinel, sampling the suffix array at the given level. -/
def FMIndex.create (text : List Nat) (σ level : Nat) : FMIndex :=
  FMIndex.new (ensure_sentinel text) σ level

/-- The number of positions of `t` whose suffix is lexicographically
strictly below `q`: the start of the `q`-block of rows. -/
def lexCountLt (t q : List Nat) : Nat :=
  (List.range t.length).countP (fun k => listLt (t.drop k) q)

theorem listLt_irrefl (x : List Nat) : listLt x x = false := by
  induction x with
  | nil => rfl
  | cons a x ih => simp [listLt, ih]

theorem listLe_refl (x : List Nat) : listLe x x = true := by
  induction x with
  | nil => rfl
  | cons a x ih => simp [listLe, ih]

theorem listLe_iff (x y : List Nat) : listLe x y = true ↔ (listLt x y = true ∨ x = y) := by
  induction x generalizing y with
  | nil => cases y <;> simp [listLe, listLt]
  | cons a x ih =>
    cases y with
    | nil => simp [listLe, listLt]
    | cons b y =>
      simp only [listLe, listLt, Bool.or_eq_true, Bool.and_eq_true, decide_eq_true_eq,
        beq_iff_eq, List.cons.injEq]
      constructor
      · rintro (h | ⟨rfl, h⟩)
        · exact Or.inl (Or.inl h)
        · rcases (ih y).mp h with h' | rfl
          · exact Or.inl (Or.inr ⟨rfl, h'⟩)
          · exact Or.inr ⟨rfl, rfl⟩
      · rintro ((h | ⟨rfl, h⟩) | ⟨rfl, rfl⟩)
        · exact Or.inl h
        · exact Or.inr ⟨rfl, (ih y).mpr (Or.inl h)⟩
        · exact Or.inr ⟨rfl, listLe_refl x⟩

theorem listLt_asymm {x y : List Nat} (h : listLt x y = true) : listLt y x = false := by
  induction x generalizing y with
  | nil => cases y <;> simp [listLt]
  | cons a x ih =>
    cases y with
    | nil => simp [listLt] at h
    | cons b y =>
      simp only [listLt, Bool.or_eq_true, Bool.and_eq_true, decide_eq_true_eq, beq_iff_eq] at h ⊢
      simp only [Bool.or_eq_false_iff, Bool.and_eq_false_iff, decide_eq_false_iff_not, not_lt]
      rcases h with h | ⟨rfl, h⟩
      · exact ⟨Nat.le_of_lt h, Or.inl (beq_eq_false_iff_ne.mpr (Ne.symm (Nat.ne_of_lt h)))⟩
      · exact ⟨le_refl a, Or.inr (ih h)⟩

theorem listLt_trans {x y z : List Nat} (h₁ : listLt x y = true) (h₂ : listLt y z = true) :
    listLt x z = true := by
  induction x generalizing y z with
  | nil =>
    cases z with
    | nil => cases y <;> simp [listLt] at h₁ h₂
    | cons c z => simp [listLt]
  | cons a x ih =>
    cases y with
    | nil => simp [listLt] at h₁
    | cons b y =>
      cases z with
      | nil => simp [listLt] at h₂
      | cons c z =>
        simp only [listLt, Bool.or_eq_true, Bool.and_eq_true, decide_eq_true_eq,
          beq_iff_eq] at h₁ h₂ ⊢
        rcases h₁ with h₁ | ⟨rfl, h₁⟩ <;> rcases h₂ with h₂ | ⟨rfl, h₂⟩
        · exact Or.inl (Nat.lt_trans h₁ h₂)
        · exact Or.inl h₁
        · exact Or.inl h₂
        · exact Or.inr ⟨rfl, ih h₁ h₂⟩

theorem listLe_of_lt {x y : List Nat} (h : listLt x y = true) : listLe x y = true :=
  (listLe_iff x y).mpr (Or.inl h)

theorem listLt_of_le_of_lt {x y z : List Nat} (h₁ : listLe x y = true)
    (h₂ : listLt y z = true) : listLt x z = true := by
  rcases (listLe_iff x y).mp h₁ with h | rfl
  · exact listLt_trans h h₂
  · exact h₂

theorem listLt_of_lt_of_le {x y z : List Nat} (h₁ : listLt x y = true)
    (h₂ : listLe y z = true) : listLt x z = true := by
  rcases (listLe_iff y z).mp h₂ with h | rfl
  · exact listLt_trans h₁ h
  · exact h₁

theorem listLe_total (x y : List Nat) : listLe x y = true ∨ listLe y x = true := by
  induction x generalizing y with
  | nil => simp [listLe]
  | cons a x ih =>
    cases y with
    | nil => simp [listLe]
    | cons b y =>
      simp only [listLe, Bool.or_eq_true, Bool.and_eq_true, decide_eq_true_eq, beq_iff_eq]
      rcases Nat.lt_trichotomy a b with h | rfl | h
      · exact Or.inl (Or.inl h)
      · rcases ih y with h | h
        · exact Or.inl (Or.inr ⟨rfl, h⟩)
        · exact Or.inr (Or.inr ⟨rfl, h⟩)
      · exact Or.inr (Or.inl h)

theorem listLe_trans {x y z : List Nat} (h₁ : listLe x y = true) (h₂ : listLe y z = true) :
    listLe x z = true := by
  rcases (listLe_iff x y).mp h₁ with h | rfl
  · exact listLe_of_lt (listLt_of_lt_of_le h h₂)
  · exact h₂

theorem listLe_antisymm {x y : List Nat} (h₁ : listLe x y = true) (h₂ : listLe y x = true) :
    x = y := by
  rcases (listLe_iff x y).mp h₁ with h | rfl
  · rcases (listLe_iff y x).mp h₂ with h' | rfl
    · exact absurd (listLt_asymm h) (by simp [h'])
    · rfl
  · rfl

theorem listLt_iff_le_ne {x y : List Nat} : listLt x y = true ↔ (listLe x y = true ∧ x ≠ y) := by
  constructor
  · intro h
    refine ⟨listLe_of_lt h, ?_⟩
    rintro rfl
    simp [listLt_irrefl] at h
  · rintro ⟨h, hne⟩
    rcases (listLe_iff x y).mp h with h' | rfl
    · exact h'
    · exact absurd rfl hne

theorem isPrefixOf_not_listLt {q x : List Nat} (h : q.isPrefixOf x = true) :
    listLt x q = false := by
  induction q generalizing x with
  | nil => cases x <;> rfl
  | cons c q ih =>
    cases x with
    | nil => simp [List.isPrefixOf] at h
    | cons a x =>
      simp only [List.isPrefixOf, Bool.and_eq_true, beq_iff_eq] at h
      obtain ⟨rfl, h⟩ := h
      simp [listLt, ih h]

theorem listLe_prefix_cases {q x y : List Nat} (hle : listLe y x = true)
    (hpre : q.isPrefixOf x = true) : q.isPrefixOf y = true ∨ listLt y q = true := by
  induction q generalizing x y with
  | nil => exact Or.inl (by simp [List.isPrefixOf])
  | cons c q ih =>
    cases x with
    | nil => simp [List.isPrefixOf] at hpre
    | cons a x =>
      simp only [List.isPrefixOf, Bool.and_eq_true, beq_iff_eq] at hpre
      obtain ⟨rfl, hpre⟩ := hpre
      cases y with
      | nil => exact Or.inr rfl
      | cons b y =>
        simp only [listLe, Bool.or_eq_true, Bool.and_eq_true, decide_eq_true_eq,
          beq_iff_eq] at hle
        rcases hle with hlt | ⟨rfl, hle⟩
        · exact Or.inr (by simp [listLt, hlt])
        · rcases ih hle hpre with h | h
          · exact Or.inl (by simp [List.isPrefixOf, h])
          · exact Or.inr (by simp [listLt, h])

/-- Counting a disjunction of disjoint predicates splits into a sum. -/
theorem countP_or_disjoint {α : Type} (p q : α → Bool) (l : List α)
    (h : ∀ a ∈ l, ¬(p a = true ∧ q a = true)) :
    l.countP (fun a => p a || q a) = l.countP p + l.countP q := by
  induction l with
  | nil => rfl
  | cons a l ih =>
    have ha := h a (List.mem_cons_self a l)
    have ih' := ih (fun b hb => h b (List.mem_cons_of_mem a hb))
    by_cases hp : p a = true
    · have hq : ¬(q a = true) := fun hq => ha ⟨hp, hq⟩
      rw [List.countP_cons_of_pos _ _ (by simp [hp]), List.countP_cons_of_pos _ _ hp,
        List.countP_cons_of_neg _ _ hq, ih']
      omega
    · by_cases hq : q a = true
      · rw [List.countP_cons_of_pos _ _ (by simp [hq]), List.countP_cons_of_neg _ _ hp,
          List.countP_cons_of_pos _ _ hq, ih']
        omega
      · rw [List.countP_cons_of_neg _ _ (by simp [hp, hq]), List.countP_cons_of_neg _ _ hp,
          List.countP_cons_of_neg _ _ hq, ih']

/-- In a list sorted by `le`, a predicate `Q` that is downward closed along
`le` holds at index `j` exactly when `j` is below the number of `Q`-elements. -/
theorem sorted_countP_iff {α : Type} {le : α → α → Bool} {Q : α → Bool} :
    ∀ {l : List α}, l.Pairwise (fun a b => le a b = true) →
      (∀ a b, le a b = true → Q b = true → Q a = true) →
      ∀ j (hj : j < l.length), (Q l[j] = true ↔ j < l.countP Q)
  | [], _, _, j, hj => by simp at hj
  | a :: l, hp, hdc, 0, hj => by
    simp only [List.getElem_cons_zero]
    constructor
    · intro h
      rw [List.countP_cons_of_pos _ _ h]
      omega
    · intro h
      by_contra hQa
      have : l.countP Q = 0 := by
        rw [List.countP_eq_zero]
        intro b hb hQb
        exact hQa (hdc a b ((List.pairwise_cons.mp hp).1 b hb) hQb)
      rw [List.countP_cons_of_neg _ _ (by simpa using hQa)] at h
      omega
  | a :: l, hp, hdc, j + 1, hj => by
    simp only [List.getElem_cons_succ]
    have hp' := (List.pairwise_cons.mp hp).2
    have ihp := sorted_countP_iff hp' hdc j (by simpa using Nat.lt_of_succ_lt_succ hj)
    constructor
    · intro h
      have hQa : Q a = true :=
        hdc a _ ((List.pairwise_cons.mp hp).1 _ (List.getElem_mem _)) h
      rw [List.countP_cons_of_pos _ _ hQa]
      have := ihp.mp h
      omega
    · intro h
      rw [List.countP_cons] at h
      have : j < l.countP Q := by
        by_cases hQa : Q a = true <;> simp [hQa] at h <;> omega
      exact ihp.mpr this

/-- In a strictly sorted list, the element `x` sits at index
`countP (fun y => r y x)`. -/
theorem sorted_getD_countP {α : Type} {r : α → α → Bool}
    (hasym : ∀ a b, r a b = true → r b a = true → False) :
    ∀ {l : List α}, l.Pairwise (fun a b => r a b = true) →
      ∀ {x : α}, x ∈ l → ∀ d, l.getD (l.countP (fun y => r y x)) d = x
  | [], _, x, hx, _ => by simp at hx
  | a :: l, hp, x, hx, d => by
    rcases List.mem_cons.mp hx with rfl | hx
    · have h0 : (x :: l).countP (fun y => r y x) = 0 := by
        rw [List.countP_eq_zero]
        intro b hb hrb
        rcases List.mem_cons.mp hb with rfl | hb
        · exact hasym _ _ hrb hrb
        · exact hasym _ _ hrb ((List.pairwise_cons.mp hp).1 b hb)
      simp [h0]
    · have hax : r a x = true := (List.pairwise_cons.mp hp).1 x hx
      have hna : ¬(r x a = true) := fun h => hasym _ _ hax h
      rw [List.countP_cons_of_pos (fun y => r y x) l hax]
      simpa using sorted_getD_countP hasym (List.pairwise_cons.mp hp).2 hx d

theorem insertLe_perm {α : Type} (le : α → α → Bool) (x : α) (l : List α) :
    List.Perm (insertLe le x l) (x :: l) := by
  induction l with
  | nil => rfl
  | cons y ys ih =>
    simp only [insertLe]
    by_cases h : le x y = true
    · simp [h]
    · simp only [h, if_false]
      exact ((ih.cons y).trans (List.Perm.swap x y ys))

theorem isortLe_perm {α : Type} (le : α → α → Bool) (l : List α) :
    List.Perm (isortLe le l) l := by
  induction l with
  | nil => rfl
  | cons x xs ih => exact (insertLe_perm le x (isortLe le xs)).trans (ih.cons x)

theorem insertLe_pairwise {α : Type} {le : α → α → Bool}
    (htot : ∀ a b, le a b = true ∨ le b a = true)
    (htrans : ∀ a b c, le a b = true → le b c = true → le a c = true)
    (x : α) {l : List α} (hl : l.Pairwise (fun a b => le a b = true)) :
    (insertLe le x l).Pairwise (fun a b => le a b = true) := by
  induction l with
  | nil => simp [insertLe]
  | cons y ys ih =>
    obtain ⟨hy, hys⟩ := List.pairwise_cons.mp hl
    simp only [insertLe]
    by_cases h : le x y = true
    · simp only [h, if_true]
      refine List.pairwise_cons.mpr ⟨?_, hl⟩
      intro b hb
      rcases List.mem_cons.mp hb with rfl | hb
      · exact h
      · exact htrans x y b h (hy b hb)
    · simp only [h, if_false]
      refine List.pairwise_cons.mpr ⟨?_, ih hys⟩
      intro b hb
      have hb' := (insertLe_perm le x ys).mem_iff.mp hb
      rcases List.mem_cons.mp hb' with rfl | hb'
      · rcases htot b y with h' | h'
        · exact absurd h' h
        · exact h'
      · exact hy b hb'

theorem isortLe_pairwise {α : Type} {le : α → α → Bool}
    (htot : ∀ a b, le a b = true ∨ le b a = true)
    (htrans : ∀ a b c, le a b = true → le b c = true → le a c = true)
    (l : List α) : (isortLe le l).Pairwise (fun a b => le a b = true) := by
  induction l with
  | nil => simp [isortLe]
  | cons x xs ih => exact insertLe_pairwise htot htrans x ih

theorem sais_perm (t : List Nat) : List.Perm (sais t) (List.range t.length) :=
  isortLe_perm _ _

theorem sais_length (t : List Nat) : (sais t).length = t.length := by
  rw [(sais_perm t).length_eq, List.length_range]

theorem sais_nodup (t : List Nat) : (sais t).Nodup :=
  (List.nodup_range t.length).perm (sais_perm t).symm

theorem mem_sais {t : List Nat} {k : Nat} : k ∈ sais t ↔ k < t.length := by
  rw [(sais_perm t).mem_iff, List.mem_range]

theorem sais_pairwise_le (t : List Nat) :
    (sais t).Pairwise (fun i j => listLe (t.drop i) (t.drop j) = true) :=
  isortLe_pairwise (fun i j => listLe_total (t.drop i) (t.drop j))
    (fun _ _ _ h₁ h₂ => listLe_trans h₁ h₂) _

/-- Distinct positions below the length carry distinct suffixes (they
have different lengths). -/
theorem drop_ne_of_ne {t : List Nat} {i j : Nat} (hi : i < t.length) (hj : j < t.length)
    (hne : i ≠ j) : t.drop i ≠ t.drop j := by
  intro h
  have : (t.drop i).length = (t.drop j).length := by rw [h]
  simp only [List.length_drop] at this
  omega

theorem sais_pairwise_lt (t : List Nat) :
    (sais t).Pairwise (fun i j => listLt (t.drop i) (t.drop j) = true) := by
  have h₁ := sais_pairwise_le t
  have h₂ : (sais t).Nodup := sais_nodup t
  refine (h₁.and h₂).imp_of_mem ?_
  intro i j hi hj h
  exact listLt_iff_le_ne.mpr ⟨h.1, drop_ne_of_ne (mem_sais.mp hi) (mem_sais.mp hj) h.2⟩

theorem FMIndex.len_new (t : List Nat) (σ lvl : Nat) :
    (FMIndex.new t σ lvl).len = t.length := by
  simp [FMIndex.len, FMIndex.new, sais_length]

theorem map_getD_range {α : Type} (l : List α) (d : α) :
    (List.range l.length).map (fun k => l.getD k d) = l := by
  apply List.ext_getElem
  · simp
  · intro i h₁ h₂
    simp [List.getD_eq_getElem?_getD, List.getElem?_eq_getElem h₂]

theorem getD_append_left {α : Type} {l₁ l₂ : List α} {k : Nat} (d : α) (h : k < l₁.length) :
    (l₁ ++ l₂).getD k d = l₁.getD k d := by
  rw [List.getD_eq_getElem?_getD, List.getD_eq_getElem?_getD, List.getElem?_append_left h]

theorem getD_append_right {α : Type} {l₁ l₂ : List α} {k : Nat} (d : α)
    (h : l₁.length ≤ k) : (l₁ ++ l₂).getD k d = l₂.getD (k - l₁.length) d := by
  rw [List.getD_eq_getElem?_getD, List.getD_eq_getElem?_getD, List.getElem?_append_right h]

/-- The Burrows-Wheeler column of the index over a sentinel-terminated
text is a permutation of that text. -/
theorem bw_new_perm (t₀ : List Nat) (σ lvl : Nat) :
    List.Perm (FMIndex.new (t₀ ++ [0]) σ lvl).bw (t₀ ++ [0]) := by
  set t : List Nat := t₀ ++ [0] with ht
  have h₁ : List.Perm ((FMIndex.new t σ lvl).bw) ((List.range t.length).map (bwtOf t)) := by
    exact (sais_perm t).map (bwtOf t)
  have hlen : t.length = t₀.length + 1 := by simp [ht]
  have h₂ : (List.range t.length).map (bwtOf t) = 0 :: t₀ := by
    rw [hlen, List.range_succ_eq_map, List.map_cons, List.map_map]
    have hhead : bwtOf t 0 = 0 := rfl
    rw [hhead]
    congr 1
    have : (bwtOf t ∘ Nat.succ) = fun k => t.getD k 0 := by
      funext k
      simp [bwtOf, Function.comp]
    rw [this]
    have : ∀ k ∈ List.range t₀.length, t.getD k 0 = t₀.getD k 0 := by
      intro k hk
      exact getD_append_left 0 (List.mem_range.mp hk)
    calc (List.range t₀.length).map (fun k => t.getD k 0)
        = (List.range t₀.length).map (fun k => t₀.getD k 0) := List.map_congr_left this
      _ = t₀ := map_getD_range t₀ 0
  refine h₁.trans ?_
  rw [h₂]
  exact (List.perm_append_singleton 0 t₀).symm

theorem get_bucket_start_pos_length (t : List Nat) (σ : Nat) :
    (get_bucket_start_pos t σ).length = σ + 1 := by
  simp [get_bucket_start_pos]

theorem get_bucket_start_pos_getD {t : List Nat} {σ c : Nat} (h : c ≤ σ) :
    (get_bucket_start_pos t σ).getD c 0 = t.countP (fun x => decide (x < c)) := by
  have hc : c < ((List.range (σ + 1)).map
      (fun c => t.countP (fun x => decide (x < c)))).length := by
    simp; omega
  rw [get_bucket_start_pos, List.getD_eq_getElem?_getD, List.getElem?_eq_getElem hc]
  simp

theorem get_bucket_start_pos_getD_top {t : List Nat} {σ c : Nat} (h : σ < c) :
    (get_bucket_start_pos t σ).getD c 0 = 0 := by
  apply List.getD_eq_default
  simp [get_bucket_start_pos]
  omega

theorem rank_le_countP (l : List Nat) (c i : Nat) :
    WaveletMatrix.rank l c i ≤ l.countP (fun x => x == c) :=
  (List.take_sublist i l).countP_le _

theorem rank_mono (l : List Nat) (c : Nat) {i j : Nat} (h : i ≤ j) :
    WaveletMatrix.rank l c i ≤ WaveletMatrix.rank l c j := by
  have : l.take i = (l.take j).take i := by
    rw [List.take_take, Nat.min_eq_left h]
  rw [WaveletMatrix.rank, this]
  exact (List.take_sublist i (l.take j)).countP_le _

theorem countP_lt_add_countP_eq_le (t : List Nat) (c : Nat) :
    t.countP (fun x => decide (x < c)) + t.countP (fun x => x == c) ≤ t.length := by
  have h := countP_or_disjoint (fun x => decide (x < c)) (fun x => x == c) t ?_
  · rw [← h]
    exact List.countP_le_length _
  · intro a _ ⟨h₁, h₂⟩
    simp only [decide_eq_true_eq, beq_iff_eq] at h₁ h₂
    omega

/-- Uniform bound: an LF step never leaves `[0, len]`, for an index over
a sentinel-terminated text whose codes lie below `σ`. -/
theorem lf_map_le_len {t₀ : List Nat} {σ lvl : Nat} (c i : Nat) :
    (FMIndex.new (t₀ ++ [0]) σ lvl).lf_map c i ≤ (FMIndex.new (t₀ ++ [0]) σ lvl).len := by
  set fm := FMIndex.new (t₀ ++ [0]) σ lvl with hfm
  set t : List Nat := t₀ ++ [0] with ht
  have hocc : fm.occs.getD c 0 ≤ t.countP (fun x => decide (x < c)) := by
    rcases Nat.lt_or_ge σ c with h | h
    · rw [hfm, show (FMIndex.new t σ lvl).occs = get_bucket_start_pos t σ from rfl,
        get_bucket_start_pos_getD_top h]
      exact Nat.zero_le _
    · rw [hfm]
      rw [show (FMIndex.new t σ lvl).occs = get_bucket_start_pos t σ from rfl]
      rw [get_bucket_start_pos_getD h]
  have hrank : WaveletMatrix.rank fm.bw c i ≤ t.countP (fun x => x == c) := by
    calc WaveletMatrix.rank fm.bw c i ≤ fm.bw.countP (fun x => x == c) :=
          rank_le_countP fm.bw c i
      _ = t.countP (fun x => x == c) := (bw_new_perm t₀ σ lvl).countP_eq _
  have hlen : fm.len = t.length := FMIndex.len_new t σ lvl
  calc fm.lf_map c i = fm.occs.getD c 0 + WaveletMatrix.rank fm.bw c i := rfl
    _ ≤ t.countP (fun x => decide (x < c)) + t.countP (fun x => x == c) :=
        Nat.add_le_add hocc hrank
    _ ≤ t.length := countP_lt_add_countP_eq_le t c
    _ = fm.len := hlen.symm

theorem lf_map_mono (fm : FMIndex) (c : Nat) {i j : Nat} (h : i ≤ j) :
    fm.lf_map c i ≤ fm.lf_map c j :=
  Nat.add_le_add_left (rank_mono fm.bw c h) _

/-- The backward-search loop keeps the cursor invariant
`s ≤ e ≤ len`. -/
theorem backwardLoop_invariant {t₀ : List Nat} {σ lvl : Nat} (l : List Nat) :
    ∀ s e, s ≤ e → e ≤ (FMIndex.new (t₀ ++ [0]) σ lvl).len →
      (backwardLoop (FMIndex.new (t₀ ++ [0]) σ lvl) s e l).1 ≤
          (backwardLoop (FMIndex.new (t₀ ++ [0]) σ lvl) s e l).2 ∧
        (backwardLoop (FMIndex.new (t₀ ++ [0]) σ lvl) s e l).2 ≤
          (FMIndex.new (t₀ ++ [0]) σ lvl).len := by
  induction l with
  | nil => intro s e h₁ h₂; exact ⟨h₁, h₂⟩
  | cons c rest ih =>
    intro s e h₁ h₂
    set fm := FMIndex.new (t₀ ++ [0]) σ lvl with hfm
    simp only [backwardLoop]
    have hs1e1 : fm.lf_map c s ≤ fm.lf_map c e := lf_map_mono fm c h₁
    have he1 : fm.lf_map c e ≤ fm.len := lf_map_le_len c e
    by_cases hb : fm.lf_map c s = fm.lf_map c e
    · simp only [hb, if_pos rfl]
      exact ⟨le_refl _, he1⟩
    · simp only [if_neg hb]
      exact ih _ _ hs1e1 he1

/-- An empty range stays empty through the backward-search loop. -/
theorem backwardLoop_empty (fm : FMIndex) (l : List Nat) (s : Nat) :
    (backwardLoop fm s s l).1 = (backwardLoop fm s s l).2 := by
  cases l with
  | nil => rfl
  | cons c rest => simp [backwardLoop]

/-- Splitting the processed list: either the loop never empties during
the first part and the runs compose, or both runs end empty. -/
theorem backwardLoop_append (fm : FMIndex) (l₁ l₂ : List Nat) :
    ∀ s e,
      backwardLoop fm s e (l₁ ++ l₂) =
          backwardLoop fm (backwardLoop fm s e l₁).1 (backwardLoop fm s e l₁).2 l₂ ∨
        ((backwardLoop fm s e (l₁ ++ l₂)).1 = (backwardLoop fm s e (l₁ ++ l₂)).2 ∧
          (backwardLoop fm s e l₁).1 = (backwardLoop fm s e l₁).2) := by
  induction l₁ with
  | nil => intro s e; exact Or.inl rfl
  | cons c rest ih =>
    intro s e
    simp only [List.cons_append, backwardLoop]
    by_cases hb : fm.lf_map c s = fm.lf_map c e
    · simp only [hb, if_pos rfl]
      exact Or.inr ⟨rfl, rfl⟩
    · simp only [if_neg hb]
      exact ih _ _

/-- Counting within a prefix of `l` as counting indices below `i`. -/
theorem countP_take_eq {α : Type} (p : α → Bool) (d : α) :
    ∀ (l : List α) (i : Nat),
      (l.take i).countP p =
        (List.range l.length).countP (fun j => decide (j < i) && p (l.getD j d))
  | [], i => by simp
  | a :: l, 0 => by
    simp only [List.take_zero, List.countP_nil]
    symm
    rw [List.countP_eq_zero]
    intro j hj
    simp
  | a :: l, i + 1 => by
    have ih := countP_take_eq p d l i
    simp only [List.take_succ_cons, List.length_cons, List.range_succ_eq_map]
    rw [List.countP_cons, List.countP_cons, List.countP_map, ih]
    have hcomp : ((fun j => decide (j < i + 1) && p ((a :: l).getD j d)) ∘ Nat.succ) =
        (fun j => decide (j < i) && p (l.getD j d)) := by
      funext j
      simp [Function.comp, Nat.succ_lt_succ_iff]
    rw [hcomp]
    simp

/-- Counting over a list as counting over its index range. -/
theorem countP_eq_countP_range {α : Type} (p : α → Bool) (d : α) (l : List α) :
    l.countP p = (List.range l.length).countP (fun j => p (l.getD j d)) := by
  have h := countP_take_eq p d l l.length
  rw [List.take_length] at h
  rw [h]
  apply List.countP_congr
  intro j hj
  simp [List.mem_range.mp hj]

theorem rank_eq_countP_range (l : List Nat) (c i : Nat) :
    WaveletMatrix.rank l c i =
      (List.range l.length).countP (fun j => decide (j < i) && (l.getD j 0 == c)) :=
  countP_take_eq (fun x => x == c) 0 l i

/-- One more occurrence of `c` lies at position `i` itself. -/
theorem rank_lt_countP {l : List Nat} {c i : Nat} (hi : i < l.length)
    (hc : l.getD i 0 = c) : WaveletMatrix.rank l c i < l.countP (fun x => x == c) := by
  have htake : (l.take (i + 1)).countP (fun x => x == c) =
      WaveletMatrix.rank l c i + 1 := by
    rw [List.take_succ, List.getElem?_eq_getElem hi]
    rw [List.countP_append]
    have : l[i] = c := by
      rw [← hc, List.getD_eq_getElem?_getD, List.getElem?_eq_getElem hi]
      rfl
    simp [WaveletMatrix.rank, this]
  have := List.Sublist.countP_le (fun x => x == c) (List.take_sublist (i + 1) l)
  omega

/-- The binary search `gfcLoop` returns the greatest index whose bucket
start is at most `i`, under the loop invariant. -/
theorem gfcLoop_spec (occs : List Nat) (i : Nat) :
    ∀ d s e, e - s ≤ d → s < e → e ≤ occs.length → occs.getD s 0 ≤ i →
      (e = occs.length ∨ i < occs.getD e 0) →
      s ≤ gfcLoop occs i s e ∧ gfcLoop occs i s e < e ∧
        occs.getD (gfcLoop occs i s e) 0 ≤ i ∧
        (gfcLoop occs i s e + 1 = occs.length ∨ i < occs.getD (gfcLoop occs i s e + 1) 0) := by
  intro d
  induction d with
  | zero => intro s e h₁ h₂; omega
  | succ d ih =>
    intro s e h₁ h₂ h₃ h₄ h₅
    rw [gfcLoop]
    by_cases hse : 1 < e - s
    · simp only [if_pos hse]
      by_cases hm : occs.getD (s + (e - s) / 2) 0 ≤ i
      · simp only [if_pos hm]
        have := ih (s + (e - s) / 2) e (by omega) (by omega) h₃ hm h₅
        omega
      · simp only [if_neg hm]
        have := ih s (s + (e - s) / 2) (by omega) (by omega) (by omega) h₄
          (Or.inr (by omega))
        omega
    · simp only [if_neg hse]
      have he : e = s + 1 := by omega
      refine ⟨le_refl s, by omega, h₄, ?_⟩
      rw [← he]
      exact h₅

/-- In a strictly sorted list, the number of elements below the one at
index `j` is `j`. -/
theorem sorted_countP_getElem {α : Type} {r : α → α → Bool}
    (hasym : ∀ a b, r a b = true → r b a = true → False) :
    ∀ {l : List α}, l.Pairwise (fun a b => r a b = true) →
      ∀ j (hj : j < l.length), l.countP (fun y => r y l[j]) = j
  | [], _, j, hj => by simp at hj
  | a :: l, hp, 0, hj => by
    simp only [List.getElem_cons_zero]
    rw [List.countP_eq_zero]
    intro b hb hrb
    rcases List.mem_cons.mp hb with rfl | hb
    · exact hasym _ _ hrb hrb
    · exact hasym _ _ hrb ((List.pairwise_cons.mp hp).1 b hb)
  | a :: l, hp, j + 1, hj => by
    have hj' : j < l.length := by simpa using hj
    simp only [List.getElem_cons_succ]
    have hmem : l[j] ∈ l := List.getElem_mem hj'
    have hra : r a l[j] = true := (List.pairwise_cons.mp hp).1 _ hmem
    rw [List.countP_cons_of_pos (fun y => r y l[j]) l hra,
      sorted_countP_getElem hasym (List.pairwise_cons.mp hp).2 j hj']

theorem listNatLt_asymm : ∀ a b : Nat, decide (a < b) = true → decide (b < a) = true → False := by
  intro a b h₁ h₂
  simp at h₁ h₂
  omega

/-- The list of positions of code `c`, as used by `select`. -/
theorem select_positions_pairwise (l : List Nat) (c : Nat) :
    ((List.range l.length).filter (fun j => l.getD j 0 == c)).Pairwise
      (fun a b => decide (a < b) = true) := by
  have h := List.pairwise_lt_range l.length
  exact (h.sublist (List.filter_sublist _)).imp (fun hab => by simpa using hab)

theorem select_positions_length (l : List Nat) (c : Nat) :
    ((List.range l.length).filter (fun j => l.getD j 0 == c)).length =
      l.countP (fun x => x == c) := by
  rw [← List.countP_eq_length_filter]
  rw [countP_eq_countP_range (fun x => x == c) 0 l]

/-- `select` is a left inverse of `rank` at occupied positions. -/
theorem select_rank {l : List Nat} {c i : Nat} (hi : i < l.length)
    (hc : l.getD i 0 = c) :
    WaveletMatrix.select l c (WaveletMatrix.rank l c i) = i := by
  have hmem : i ∈ (List.range l.length).filter (fun j => l.getD j 0 == c) := by
    rw [List.mem_filter, List.mem_range]
    exact ⟨hi, by simp only [hc, beq_self_eq_true]⟩
  have hkey := sorted_getD_countP listNatLt_asymm (select_positions_pairwise l c) hmem 0
  have hcount : ((List.range l.length).filter (fun j => l.getD j 0 == c)).countP
      (fun y => decide (y < i)) = WaveletMatrix.rank l c i := by
    rw [List.countP_filter, rank_eq_countP_range]
  rw [WaveletMatrix.select, ← hcount]
  exact hkey

/-- `rank` is a left inverse of `select` below the occurrence count. -/
theorem rank_select {l : List Nat} {c k : Nat} (hk : k < l.countP (fun x => x == c)) :
    WaveletMatrix.select l c k < l.length ∧
      l.getD (WaveletMatrix.select l c k) 0 = c ∧
      WaveletMatrix.rank l c (WaveletMatrix.select l c k) = k := by
  have hlen : ((List.range l.length).filter (fun j => l.getD j 0 == c)).length =
      l.countP (fun x => x == c) := select_positions_length l c
  have hkF : k < ((List.range l.length).filter (fun j => l.getD j 0 == c)).length := by
    omega
  have hsel : WaveletMatrix.select l c k =
      ((List.range l.length).filter (fun j => l.getD j 0 == c)).get ⟨k, hkF⟩ := by
    rw [WaveletMatrix.select, List.getD_eq_getElem?_getD, List.getElem?_eq_getElem hkF]
    rfl
  have hmem : ((List.range l.length).filter (fun j => l.getD j 0 == c)).get ⟨k, hkF⟩ ∈
      (List.range l.length).filter (fun j => l.getD j 0 == c) := List.get_mem _ _ _
  have hmem' := List.mem_filter.mp hmem
  have h₁ := List.mem_range.mp hmem'.1
  have h₂ : l.getD (((List.range l.length).filter (fun j => l.getD j 0 == c)).get ⟨k, hkF⟩) 0
      = c := by simpa using hmem'.2
  have hcount : WaveletMatrix.rank l c
        (((List.range l.length).filter (fun j => l.getD j 0 == c)).get ⟨k, hkF⟩) =
      ((List.range l.length).filter (fun j => l.getD j 0 == c)).countP
        (fun y => decide (y < ((List.range l.length).filter
          (fun j => l.getD j 0 == c)).get ⟨k, hkF⟩)) := by
    rw [List.countP_filter, rank_eq_countP_range]
  refine ⟨?_, ?_, ?_⟩
  · rw [hsel]
    exact h₁
  · rw [hsel]
    exact h₂
  · rw [hsel, hcount]
    have := sorted_countP_getElem listNatLt_asymm (select_positions_pairwise l c) k hkF
    simpa using this

theorem occs_getD_zero (t : List Nat) (σ : Nat) :
    (get_bucket_start_pos t σ).getD 0 0 = 0 := by
  rw [get_bucket_start_pos_getD (Nat.zero_le σ)]
  simp

theorem occs_getD_mono (t : List Nat) {σ c₁ c₂ : Nat} (h : c₁ ≤ c₂) (h₂ : c₂ ≤ σ) :
    (get_bucket_start_pos t σ).getD c₁ 0 ≤ (get_bucket_start_pos t σ).getD c₂ 0 := by
  rw [get_bucket_start_pos_getD (le_trans h h₂), get_bucket_start_pos_getD h₂]
  apply List.countP_mono_left
  intro x _ hx
  simp only [decide_eq_true_eq] at hx ⊢
  omega

theorem occs_getD_top {t : List Nat} {σ : Nat} (hσ : ∀ c ∈ t, c < σ) :
    (get_bucket_start_pos t σ).getD σ 0 = t.length := by
  rw [get_bucket_start_pos_getD (le_refl σ)]
  rw [List.countP_eq_length]
  intro a ha
  simpa using hσ a ha

theorem occs_getD_succ (t : List Nat) {σ c : Nat} (h : c < σ) :
    (get_bucket_start_pos t σ).getD (c + 1) 0 =
      (get_bucket_start_pos t σ).getD c 0 + t.countP (fun x => x == c) := by
  rw [get_bucket_start_pos_getD h, get_bucket_start_pos_getD (Nat.le_of_lt h)]
  have hcongr : t.countP (fun x => decide (x < c + 1)) =
      t.countP (fun x => decide (x < c) || (x == c)) := by
    apply List.countP_congr
    intro x _
    simp only [decide_eq_true_eq, Bool.or_eq_true, beq_iff_eq]
    omega
  rw [hcongr, countP_or_disjoint]
  intro a _ ⟨h₁, h₂⟩
  simp only [decide_eq_true_eq, beq_iff_eq] at h₁ h₂
  omega

/-- Characterisation of `get_f_char` for rows inside the index. -/
theorem get_f_char_spec {t₀ : List Nat} {σ lvl : Nat}
    (hσ : ∀ c ∈ t₀ ++ [0], c < σ) {i : Nat}
    (hi : i < (FMIndex.new (t₀ ++ [0]) σ lvl).len) :
    (FMIndex.new (t₀ ++ [0]) σ lvl).get_f_char i < σ ∧
      (get_bucket_start_pos (t₀ ++ [0]) σ).getD
          ((FMIndex.new (t₀ ++ [0]) σ lvl).get_f_char i) 0 ≤ i ∧
      i < (get_bucket_start_pos (t₀ ++ [0]) σ).getD
          ((FMIndex.new (t₀ ++ [0]) σ lvl).get_f_char i + 1) 0 := by
  set t : List Nat := t₀ ++ [0] with ht
  have hlen : (get_bucket_start_pos t σ).length = σ + 1 := get_bucket_start_pos_length t σ
  have hspec := gfcLoop_spec (get_bucket_start_pos t σ) i (get_bucket_start_pos t σ).length
    0 (get_bucket_start_pos t σ).length (le_refl _) (by rw [hlen]; omega) (le_refl _)
    (by rw [occs_getD_zero]; omega) (Or.inl rfl)
  have hgfc : (FMIndex.new t σ lvl).get_f_char i =
      gfcLoop (get_bucket_start_pos t σ) i 0 (get_bucket_start_pos t σ).length := rfl
  rw [hgfc]
  set r := gfcLoop (get_bucket_start_pos t σ) i 0 (get_bucket_start_pos t σ).length with hr
  obtain ⟨-, hrlt, hle, hright⟩ := hspec
  have hlen' : (FMIndex.new t σ lvl).len = t.length := FMIndex.len_new t σ lvl
  have htop : (get_bucket_start_pos t σ).getD σ 0 = t.length := occs_getD_top hσ
  have hrσ : r < σ := by
    by_contra hcon
    have hrs : r = σ := by omega
    rw [hrs, htop] at hle
    omega
  refine ⟨hrσ, hle, ?_⟩
  rcases hright with h | h
  · omega
  · exact h

/-- `get_f_char` is determined by any bucket containing `i`. -/
theorem get_f_char_eq {t₀ : List Nat} {σ lvl : Nat}
    (hσ : ∀ c ∈ t₀ ++ [0], c < σ) {i c : Nat}
    (hi : i < (FMIndex.new (t₀ ++ [0]) σ lvl).len) (hc : c < σ)
    (h₁ : (get_bucket_start_pos (t₀ ++ [0]) σ).getD c 0 ≤ i)
    (h₂ : i < (get_bucket_start_pos (t₀ ++ [0]) σ).getD (c + 1) 0) :
    (FMIndex.new (t₀ ++ [0]) σ lvl).get_f_char i = c := by
  obtain ⟨hrσ, hrle, hrlt⟩ := get_f_char_spec hσ hi
  set r := (FMIndex.new (t₀ ++ [0]) σ lvl).get_f_char i with hr
  rcases Nat.lt_trichotomy r c with h | h | h
  · have : (get_bucket_start_pos (t₀ ++ [0]) σ).getD (r + 1) 0 ≤
        (get_bucket_start_pos (t₀ ++ [0]) σ).getD c 0 :=
      occs_getD_mono _ (by omega) (by omega)
    omega
  · exact h
  · have : (get_bucket_start_pos (t₀ ++ [0]) σ).getD (c + 1) 0 ≤
        (get_bucket_start_pos (t₀ ++ [0]) σ).getD r 0 :=
      occs_getD_mono _ (by omega) (by omega)
    omega

theorem bw_length (t : List Nat) (σ lvl : Nat) :
    (FMIndex.new t σ lvl).bw.length = t.length := by
  simp [FMIndex.new, sais_length]

theorem access_mem_text {t₀ : List Nat} {σ lvl i : Nat}
    (hi : i < (FMIndex.new (t₀ ++ [0]) σ lvl).len) :
    WaveletMatrix.access (FMIndex.new (t₀ ++ [0]) σ lvl).bw i ∈ t₀ ++ [0] := by
  have hib : i < (FMIndex.new (t₀ ++ [0]) σ lvl).bw.length := hi
  have hmem : WaveletMatrix.access (FMIndex.new (t₀ ++ [0]) σ lvl).bw i ∈
      (FMIndex.new (t₀ ++ [0]) σ lvl).bw := by
    rw [WaveletMatrix.access, List.getD_eq_getElem?_getD, List.getElem?_eq_getElem hib]
    exact List.getElem_mem hib
  exact (bw_new_perm t₀ σ lvl).mem_iff.mp hmem

/-- The LF map lands inside the index and the FL map undoes it
(`FL (LF i) = i`). -/
theorem FL_LF_eq {t₀ : List Nat} {σ lvl : Nat} (hσ : ∀ c ∈ t₀ ++ [0], c < σ) {i : Nat}
    (hi : i < (FMIndex.new (t₀ ++ [0]) σ lvl).len) :
    (FMIndex.new (t₀ ++ [0]) σ lvl).LF i < (FMIndex.new (t₀ ++ [0]) σ lvl).len ∧
      (FMIndex.new (t₀ ++ [0]) σ lvl).FL ((FMIndex.new (t₀ ++ [0]) σ lvl).LF i) = i := by
  set t : List Nat := t₀ ++ [0] with ht
  set fm := FMIndex.new t σ lvl with hfm
  set c := WaveletMatrix.access fm.bw i with hc
  have hcσ : c < σ := hσ c (access_mem_text hi)
  have hbwi : fm.bw.getD i 0 = c := rfl
  have hib : i < fm.bw.length := hi
  have hcount : fm.bw.countP (fun x => x == c) = t.countP (fun x => x == c) :=
    (bw_new_perm t₀ σ lvl).countP_eq _
  have hrank_lt : WaveletMatrix.rank fm.bw c i < t.countP (fun x => x == c) := by
    rw [← hcount]
    exact rank_lt_countP hib hbwi
  have hoccs : fm.occs = get_bucket_start_pos t σ := rfl
  have hLF : fm.LF i = (get_bucket_start_pos t σ).getD c 0 + WaveletMatrix.rank fm.bw c i :=
    rfl
  have hsucc := occs_getD_succ t hcσ
  have hlen : fm.len = t.length := FMIndex.len_new t σ lvl
  have htop : (get_bucket_start_pos t σ).getD σ 0 = t.length := occs_getD_top hσ
  have hmono : (get_bucket_start_pos t σ).getD (c + 1) 0 ≤
      (get_bucket_start_pos t σ).getD σ 0 := occs_getD_mono _ hcσ (le_refl σ)
  have hLFlt : fm.LF i < (get_bucket_start_pos t σ).getD (c + 1) 0 := by
    rw [hLF, hsucc]
    omega
  have hLFlen : fm.LF i < fm.len := by omega
  refine ⟨hLFlen, ?_⟩
  have hf : fm.get_f_char (fm.LF i) = c :=
    get_f_char_eq hσ hLFlen hcσ (by rw [← ht, hLF]; omega) (by rw [← ht]; exact hLFlt)
  have hFL : fm.FL (fm.LF i) =
      WaveletMatrix.select fm.bw c (fm.LF i - (get_bucket_start_pos t σ).getD c 0) := by
    rw [FMIndex.FL, hf]
    rfl
  rw [hFL]
  have hsub : fm.LF i - (get_bucket_start_pos t σ).getD c 0 =
      WaveletMatrix.rank fm.bw c i := by
    rw [hLF]
    omega
  rw [hsub]
  exact select_rank hib hbwi

/-- The FL map lands inside the index and the LF map undoes it
(`LF (FL i) = i`). -/
theorem LF_FL_eq {t₀ : List Nat} {σ lvl : Nat} (hσ : ∀ c ∈ t₀ ++ [0], c < σ) {i : Nat}
    (hi : i < (FMIndex.new (t₀ ++ [0]) σ lvl).len) :
    (FMIndex.new (t₀ ++ [0]) σ lvl).FL i < (FMIndex.new (t₀ ++ [0]) σ lvl).len ∧
      (FMIndex.new (t₀ ++ [0]) σ lvl).LF ((FMIndex.new (t₀ ++ [0]) σ lvl).FL i) = i := by
  set t : List Nat := t₀ ++ [0] with ht
  set fm := FMIndex.new t σ lvl with hfm
  obtain ⟨hfσ, hfle, hflt⟩ := get_f_char_spec hσ hi
  rw [← ht] at hfle hflt
  set f := fm.get_f_char i with hf
  have hsucc := occs_getD_succ t hfσ
  have hcount : fm.bw.countP (fun x => x == f) = t.countP (fun x => x == f) :=
    (bw_new_perm t₀ σ lvl).countP_eq _
  have hk : i - (get_bucket_start_pos t σ).getD f 0 < fm.bw.countP (fun x => x == f) := by
    rw [hcount]
    omega
  obtain ⟨hjlen, hjval, hjrank⟩ := rank_select hk
  have hFL : fm.FL i =
      WaveletMatrix.select fm.bw f (i - (get_bucket_start_pos t σ).getD f 0) := rfl
  have hFLlen : fm.FL i < fm.len := by
    rw [hFL]
    exact hjlen
  refine ⟨hFLlen, ?_⟩
  have haccess : WaveletMatrix.access fm.bw (fm.FL i) = f := by
    rw [hFL]
    exact hjval
  have hLF : fm.LF (fm.FL i) =
      (get_bucket_start_pos t σ).getD f 0 + WaveletMatrix.rank fm.bw f (fm.FL i) := by
    rw [FMIndex.LF, haccess]
    rfl
  rw [hLF, hFL, hjrank]
  omega

theorem getD_map {α β : Type} (f : α → β) {l : List α} {i : Nat} (h : i < l.length)
    (d : α) (d' : β) : (l.map f).getD i d' = f (l.getD i d) := by
  have h' : i < (l.map f).length := by simpa using h
  rw [List.getD_eq_getElem?_getD, List.getElem?_eq_getElem h',
    List.getD_eq_getElem?_getD, List.getElem?_eq_getElem h]
  simp

theorem drop_eq_getD_cons {t : List Nat} {k : Nat} (h : k < t.length) :
    t.drop k = t.getD k 0 :: t.drop (k + 1) := by
  rw [List.getD_eq_getElem?_getD, List.getElem?_eq_getElem h]
  exact List.drop_eq_getElem_cons h

/-- Membership in the sorted prefix of the suffix array: the first
`countP Q (range n)` rows are exactly the positions satisfying a
downward-closed `Q`. -/
theorem mem_take_sais_iff {t : List Nat} {Q : Nat → Bool}
    (hdc : ∀ a b, listLe (t.drop a) (t.drop b) = true → Q b = true → Q a = true)
    {k : Nat} :
    k ∈ (sais t).take ((List.range t.length).countP Q) ↔ k < t.length ∧ Q k = true := by
  have hcount : (sais t).countP Q = (List.range t.length).countP Q :=
    (sais_perm t).countP_eq Q
  constructor
  · intro hk
    obtain ⟨j, hj, hjk⟩ := List.mem_take_iff_getElem.mp hk
    have hjlen : j < (sais t).length := lt_of_lt_of_le hj (by omega)
    have hQ : Q ((sais t)[j]) = true := by
      rw [sorted_countP_iff (sais_pairwise_le t) hdc j hjlen, hcount]
      omega
    rw [← hjk]
    exact ⟨mem_sais.mp (List.getElem_mem hjlen), hQ⟩
  · rintro ⟨hk, hQ⟩
    have hmem : k ∈ sais t := mem_sais.mpr hk
    obtain ⟨j, hj, hjk⟩ := List.mem_iff_getElem.mp hmem
    have hlt : j < (sais t).countP Q := by
      rw [← sorted_countP_iff (sais_pairwise_le t) hdc j hj]
      rw [hjk]
      exact hQ
    exact List.mem_take_iff_getElem.mpr ⟨j, by rw [hcount] at hlt; omega, hjk⟩

theorem nodup_filter_mem_eq {l₁ l₂ : List Nat} (h₁ : l₁.Nodup) (h₂ : l₂.Nodup)
    (h : ∀ a, a ∈ l₁ ↔ a ∈ l₂) : l₁.length = l₂.length :=
  ((List.perm_ext_iff_of_nodup h₁ h₂).mpr h).length_eq

/-- `rank` at a block boundary, counted over text positions: the rank of
`c` among the first `countP Q (range n)` rows equals the number of
positions satisfying `Q` whose Burrows-Wheeler character is `c`. -/
theorem rank_block (t : List Nat) (σ lvl : Nat) (Q : Nat → Bool)
    (hdc : ∀ a b, listLe (t.drop a) (t.drop b) = true → Q b = true → Q a = true)
    (c : Nat) :
    WaveletMatrix.rank (FMIndex.new t σ lvl).bw c ((List.range t.length).countP Q) =
      (List.range t.length).countP (fun k => Q k && (bwtOf t k == c)) := by
  set m := (List.range t.length).countP Q with hm
  have hbw : (FMIndex.new t σ lvl).bw = (sais t).map (bwtOf t) := rfl
  have htake : ((FMIndex.new t σ lvl).bw.take m) = ((sais t).take m).map (bwtOf t) := by
    rw [hbw, List.map_take]
  rw [WaveletMatrix.rank, htake, List.countP_map]
  rw [List.countP_eq_length_filter, List.countP_eq_length_filter]
  apply nodup_filter_mem_eq
  · exact (((sais_nodup t).sublist (List.take_sublist m (sais t))).filter _)
  · exact ((List.nodup_range t.length).filter _)
  · intro a
    rw [List.mem_filter, List.mem_filter, List.mem_range]
    constructor
    · rintro ⟨hmem, hp⟩
      have := mem_take_sais_iff hdc |>.mp hmem
      refine ⟨this.1, ?_⟩
      simp only [Function.comp] at hp
      simp [this.2, hp]
    · rintro ⟨ha, hp⟩
      simp only [Bool.and_eq_true] at hp
      refine ⟨mem_take_sais_iff hdc |>.mpr ⟨ha, hp.1⟩, ?_⟩
      simp [Function.comp, hp.2]

/-- Reindexing rows to text positions: for a character `c` other than
the sentinel, counting positions `p` with Burrows-Wheeler character `c`
and `Q p` equals counting positions `k` whose own character is `c` with
`Q (k + 1)`, provided the text ends with the sentinel. -/
theorem shift_count {t : List Nat} (Q : Nat → Bool) (c : Nat) (hc : c ≠ 0)
    (hn : 0 < t.length) (hlast : t.getD (t.length - 1) 0 = 0) :
    (List.range t.length).countP (fun p => Q p && (bwtOf t p == c)) =
      (List.range t.length).countP (fun k => (t.getD k 0 == c) && Q (k + 1)) := by
  obtain ⟨m, hm⟩ : ∃ m, t.length = m + 1 := ⟨t.length - 1, by omega⟩
  have hL : (List.range t.length).countP (fun p => Q p && (bwtOf t p == c)) =
      (List.range m).countP (fun k => (t.getD k 0 == c) && Q (k + 1)) := by
    rw [hm, List.range_succ_eq_map, List.countP_cons, List.countP_map]
    have h0 : (bwtOf t 0 == c) = false := by
      simp only [bwtOf, if_neg (by omega : ¬(0 < 0))]
      simpa using (Ne.symm hc)
    simp only [h0, Bool.and_false, if_false, Nat.add_zero]
    apply List.countP_congr
    intro k _
    simp only [Function.comp, bwtOf, if_pos (Nat.succ_pos k), Nat.succ_sub_one,
      Bool.and_eq_true]
    exact ⟨fun h => ⟨h.2, h.1⟩, fun h => ⟨h.2, h.1⟩⟩
  have hR : (List.range t.length).countP (fun k => (t.getD k 0 == c) && Q (k + 1)) =
      (List.range m).countP (fun k => (t.getD k 0 == c) && Q (k + 1)) := by
    rw [hm, List.range_succ, List.countP_append]
    have hlast' : (t.getD m 0 == c) = false := by
      rw [hm] at hlast
      simp only [Nat.add_sub_cancel] at hlast
      rw [hlast]
      simpa using (Ne.symm hc)
    have hfalse : ((t.getD m 0 == c) && Q (m + 1)) = false := by
      rw [hlast']
      rfl
    rw [List.countP_cons, List.countP_nil]
    simp only [hfalse]
    simp
  rw [hL, hR]

/-- Decomposition of the strict-below count at a longer pattern. -/
theorem lexCountLt_cons (t : List Nat) (c : Nat) (q : List Nat) :
    lexCountLt t (c :: q) =
      (List.range t.length).countP (fun k => decide (t.getD k 0 < c)) +
        (List.range t.length).countP
          (fun k => (t.getD k 0 == c) && listLt (t.drop (k + 1)) q) := by
  rw [lexCountLt, ← countP_or_disjoint]
  · apply List.countP_congr
    intro k hk
    rw [drop_eq_getD_cons (List.mem_range.mp hk)]
    simp [listLt]
  · intro a _ ⟨h₁, h₂⟩
    simp only [decide_eq_true_eq, Bool.and_eq_true, beq_iff_eq] at h₁ h₂
    omega

/-- Decomposition of the at-most count (`strictly below or prefixed`) at
a longer pattern. -/
theorem lexCountLe_cons (t : List Nat) (c : Nat) (q : List Nat) :
    lexCountLt t (c :: q) + naiveOcc t (c :: q) =
      (List.range t.length).countP (fun k => decide (t.getD k 0 < c)) +
        (List.range t.length).countP (fun k => (t.getD k 0 == c) &&
          (listLt (t.drop (k + 1)) q || q.isPrefixOf (t.drop (k + 1)))) := by
  have hdisj₁ : ∀ a ∈ List.range t.length,
      ¬((listLt (t.drop a) (c :: q)) = true ∧ ((c :: q).isPrefixOf (t.drop a)) = true) := by
    intro a _ ⟨h₁, h₂⟩
    rw [isPrefixOf_not_listLt h₂] at h₁
    exact Bool.false_ne_true h₁
  have hsum : lexCountLt t (c :: q) + naiveOcc t (c :: q) =
      (List.range t.length).countP
        (fun k => listLt (t.drop k) (c :: q) || (c :: q).isPrefixOf (t.drop k)) := by
    rw [lexCountLt, naiveOcc, countP_or_disjoint _ _ _ hdisj₁]
  rw [hsum, ← countP_or_disjoint]
  · apply List.countP_congr
    intro k hk
    rw [drop_eq_getD_cons (List.mem_range.mp hk)]
    simp only [listLt, List.isPrefixOf, decide_eq_true_eq, Bool.or_eq_true, Bool.and_eq_true,
      beq_iff_eq]
    constructor
    · rintro ((h | ⟨h₁, h₂⟩) | ⟨h₁, h₂⟩)
      · exact Or.inl (by simp at h ⊢; omega)
      · exact Or.inr ⟨by simp at h₁ ⊢; omega, Or.inl h₂⟩
      · exact Or.inr ⟨by simp at h₁ ⊢; omega, Or.inr h₂⟩
    · rintro (h | ⟨h₁, (h | h)⟩)
      · exact Or.inl (Or.inl (by simp at h ⊢; omega))
      · exact Or.inl (Or.inr ⟨by simp at h₁ ⊢; omega, h⟩)
      · exact Or.inr ⟨by simp at h₁ ⊢; omega, h⟩
  · intro a _ ⟨h₁, h₂⟩
    simp only [decide_eq_true_eq, Bool.and_eq_true, beq_iff_eq] at h₁ h₂
    omega

theorem listLt_nil (x : List Nat) : listLt x [] = false := by
  cases x <;> rfl

theorem lexCountLt_nil (t : List Nat) : lexCountLt t [] = 0 := by
  rw [lexCountLt, List.countP_eq_zero]
  intro k _
  simp [listLt_nil]

theorem naiveOcc_nil (t : List Nat) : naiveOcc t [] = t.length := by
  rw [naiveOcc]
  have : ∀ k ∈ List.range t.length, (List.nil.isPrefixOf (t.drop k)) = true := by
    intro k _
    simp [List.isPrefixOf]
  calc (List.range t.length).countP (fun i => List.nil.isPrefixOf (t.drop i))
      = (List.range t.length).countP (fun _ => true) := List.countP_congr (by simp [this])
    _ = t.length := by simp

theorem sentinel_last (t₀ : List Nat) :
    (t₀ ++ [0]).getD ((t₀ ++ [0]).length - 1) 0 = 0 := by
  have h : (t₀ ++ [0]).length - 1 = t₀.length := by simp
  rw [h, getD_append_right 0 (le_refl _)]
  simp

theorem countP_lexLe (t q : List Nat) :
    (List.range t.length).countP
        (fun k => listLt (t.drop k) q || q.isPrefixOf (t.drop k)) =
      lexCountLt t q + naiveOcc t q := by
  rw [lexCountLt, naiveOcc, countP_or_disjoint]
  intro a _ ⟨h₁, h₂⟩
  rw [isPrefixOf_not_listLt h₂] at h₁
  exact Bool.false_ne_true h₁

/-- One backward-search step moves both block boundaries from pattern
`q` to pattern `c :: q`, for a non-sentinel character `c` within the
alphabet. -/
theorem lf_map_step (t₀ : List Nat) (σ lvl : Nat) {c : Nat} (hc0 : 0 < c) (hcσ : c < σ)
    (q : List Nat) :
    (FMIndex.new (t₀ ++ [0]) σ lvl).lf_map c (lexCountLt (t₀ ++ [0]) q) =
        lexCountLt (t₀ ++ [0]) (c :: q) ∧
      (FMIndex.new (t₀ ++ [0]) σ lvl).lf_map c
          (lexCountLt (t₀ ++ [0]) q + naiveOcc (t₀ ++ [0]) q) =
        lexCountLt (t₀ ++ [0]) (c :: q) + naiveOcc (t₀ ++ [0]) (c :: q) := by
  set t : List Nat := t₀ ++ [0] with ht
  have hn : 0 < t.length := by simp [ht]
  have hlast : t.getD (t.length - 1) 0 = 0 := sentinel_last t₀
  have hocc : (FMIndex.new t σ lvl).occs.getD c 0 =
      (List.range t.length).countP (fun k => decide (t.getD k 0 < c)) := by
    have h₁ : (FMIndex.new t σ lvl).occs = get_bucket_start_pos t σ := rfl
    rw [h₁, get_bucket_start_pos_getD (Nat.le_of_lt hcσ),
      countP_eq_countP_range (fun x => decide (x < c)) 0 t]
  constructor
  · have hdc : ∀ a b, listLe (t.drop a) (t.drop b) = true →
        listLt (t.drop b) q = true → listLt (t.drop a) q = true :=
      fun a b hab hb => listLt_of_le_of_lt hab hb
    have hrank := rank_block t σ lvl (fun k => listLt (t.drop k) q) hdc c
    have hshift := shift_count (fun k => listLt (t.drop k) q) c (by omega) hn hlast
    rw [FMIndex.lf_map, lexCountLt, hrank, hshift, hocc, ← lexCountLt_cons]
  · have hdc : ∀ a b, listLe (t.drop a) (t.drop b) = true →
        (listLt (t.drop b) q || q.isPrefixOf (t.drop b)) = true →
        (listLt (t.drop a) q || q.isPrefixOf (t.drop a)) = true := by
      intro a b hab hb
      rcases Bool.or_eq_true _ _ |>.mp hb with h | h
      · exact Bool.or_eq_true _ _ |>.mpr (Or.inl (listLt_of_le_of_lt hab h))
      · rcases listLe_prefix_cases hab h with h' | h'
        · exact Bool.or_eq_true _ _ |>.mpr (Or.inr h')
        · exact Bool.or_eq_true _ _ |>.mpr (Or.inl h')
    have hrank := rank_block t σ lvl
      (fun k => listLt (t.drop k) q || q.isPrefixOf (t.drop k)) hdc c
    have hshift := shift_count
      (fun k => listLt (t.drop k) q || q.isPrefixOf (t.drop k)) c (by omega) hn hlast
    rw [FMIndex.lf_map, ← countP_lexLe, hrank, hshift, hocc, ← lexCountLe_cons]

theorem isPrefixOf_append_drop {y : List Nat} :
    ∀ {x z : List Nat}, (x ++ y).isPrefixOf z = true → y.isPrefixOf (z.drop x.length) = true
  | [], z, h => h
  | a :: x, [], h => by simp [List.isPrefixOf] at h
  | a :: x, b :: z, h => by
    simp only [List.cons_append, List.isPrefixOf, Bool.and_eq_true] at h
    simpa using isPrefixOf_append_drop h.2

theorem isPrefixOf_nil_right {y : List Nat} (h : y.isPrefixOf [] = true) : y = [] := by
  cases y with
  | nil => rfl
  | cons a x => simp [List.isPrefixOf] at h

/-- If a pattern never occurs, no extension of it to the left occurs. -/
theorem naiveOcc_append_zero {t y : List Nat} (x : List Nat) (h : naiveOcc t y = 0) :
    naiveOcc t (x ++ y) = 0 := by
  rw [naiveOcc, List.countP_eq_zero]
  intro k hk
  intro hpre
  have hk' := List.mem_range.mp hk
  have hy := isPrefixOf_append_drop hpre
  rw [List.drop_drop] at hy
  rcases Nat.lt_or_ge (k + x.length) t.length with hlt | hge
  · have := List.countP_eq_zero.mp h (k + x.length) (List.mem_range.mpr hlt)
    exact this hy
  · rw [List.drop_eq_nil_of_le hge] at hy
    have hy0 : y = [] := isPrefixOf_nil_right hy
    rw [hy0, naiveOcc_nil] at h
    omega

/-- The backward-search loop computes the block of the accumulated
pattern, or ends empty on a pattern with no occurrences. -/
theorem backwardLoop_correct (t₀ : List Nat) (σ lvl : Nat) :
    ∀ (l q : List Nat) (s e : Nat),
      (∀ x ∈ l, 0 < x ∧ x < σ) →
      s = lexCountLt (t₀ ++ [0]) q →
      e = lexCountLt (t₀ ++ [0]) q + naiveOcc (t₀ ++ [0]) q →
      (backwardLoop (FMIndex.new (t₀ ++ [0]) σ lvl) s e l =
          (lexCountLt (t₀ ++ [0]) (l.reverse ++ q),
            lexCountLt (t₀ ++ [0]) (l.reverse ++ q) +
              naiveOcc (t₀ ++ [0]) (l.reverse ++ q))) ∨
        ((backwardLoop (FMIndex.new (t₀ ++ [0]) σ lvl) s e l).1 =
            (backwardLoop (FMIndex.new (t₀ ++ [0]) σ lvl) s e l).2 ∧
          naiveOcc (t₀ ++ [0]) (l.reverse ++ q) = 0) := by
  intro l
  induction l with
  | nil =>
    intro q s e _ hs he
    subst hs he
    exact Or.inl rfl
  | cons c rest ih =>
    intro q s e hchars hs he
    obtain ⟨hc0, hcσ⟩ := hchars c (List.mem_cons_self c rest)
    have hstep := lf_map_step t₀ σ lvl hc0 hcσ q
    have hrew : (c :: rest).reverse ++ q = rest.reverse ++ (c :: q) := by
      simp
    rw [hrew]
    simp only [backwardLoop]
    subst hs he
    rw [hstep.1, hstep.2]
    by_cases hb : lexCountLt (t₀ ++ [0]) (c :: q) =
        lexCountLt (t₀ ++ [0]) (c :: q) + naiveOcc (t₀ ++ [0]) (c :: q)
    · simp only [if_pos hb]
      have hnz : naiveOcc (t₀ ++ [0]) (c :: q) = 0 := by omega
      exact Or.inr ⟨hb, naiveOcc_append_zero rest.reverse hnz⟩
    · simp only [if_neg hb]
      exact ih (c :: q) _ _ (fun x hx => hchars x (List.mem_cons_of_mem c hx)) rfl rfl

/-- The count returned by backward search over a sentinel-terminated
text, for patterns of in-alphabet non-sentinel characters, is the naive
occurrence count. -/
theorem count_eq_naiveOcc {t₀ : List Nat} {σ lvl : Nat} {P : List Nat}
    (hP : ∀ x ∈ P, 0 < x ∧ x < σ) :
    ((FMIndex.new (t₀ ++ [0]) σ lvl).search_backward P).count =
      naiveOcc (t₀ ++ [0]) P := by
  have hbase₂ : (FMIndex.new (t₀ ++ [0]) σ lvl).len =
      lexCountLt (t₀ ++ [0]) [] + naiveOcc (t₀ ++ [0]) [] := by
    rw [lexCountLt_nil, naiveOcc_nil, FMIndex.len_new]
    omega
  have hchars : ∀ x ∈ P.reverse, 0 < x ∧ x < σ := by
    intro x hx
    exact hP x (List.mem_reverse.mp hx)
  have h := backwardLoop_correct t₀ σ lvl P.reverse [] 0
    (FMIndex.new (t₀ ++ [0]) σ lvl).len hchars (lexCountLt_nil _).symm hbase₂
  rw [List.reverse_reverse, List.append_nil] at h
  have hcount : ((FMIndex.new (t₀ ++ [0]) σ lvl).search_backward P).count =
      (backwardLoop (FMIndex.new (t₀ ++ [0]) σ lvl) 0
          (FMIndex.new (t₀ ++ [0]) σ lvl).len P.reverse).2 -
        (backwardLoop (FMIndex.new (t₀ ++ [0]) σ lvl) 0
          (FMIndex.new (t₀ ++ [0]) σ lvl).len P.reverse).1 := rfl
  rcases h with h | h
  · rw [hcount, h]
    omega
  · rw [hcount, h.1, h.2]
    omega

theorem unique_sentinel_getD {t₀ : List Nat} (h0 : 0 ∉ t₀) {j : Nat}
    (hj : j < (t₀ ++ [0]).length) (hz : (t₀ ++ [0]).getD j 0 = 0) : j = t₀.length := by
  rcases Nat.lt_or_ge j t₀.length with h | h
  · exfalso
    rw [getD_append_left 0 h] at hz
    have : t₀.getD j 0 ∈ t₀ := by
      rw [List.getD_eq_getElem?_getD, List.getElem?_eq_getElem h]
      exact List.getElem_mem h
    rw [hz] at this
    exact h0 this
  · simp only [List.length_append, List.length_cons, List.length_nil] at hj
    omega

theorem saD_lt {t : List Nat} {i : Nat} (hi : i < t.length) :
    (sais t).getD i 0 < t.length := by
  have hi' : i < (sais t).length := by rw [sais_length]; exact hi
  rw [List.getD_eq_getElem?_getD, List.getElem?_eq_getElem hi']
  exact mem_sais.mp (List.getElem_mem hi')

theorem suffix_lt_asymm : ∀ a b : Nat, ∀ {t : List Nat},
    listLt (t.drop a) (t.drop b) = true → listLt (t.drop b) (t.drop a) = true → False := by
  intro a b t h₁ h₂
  rw [listLt_asymm h₁] at h₂
  exact Bool.false_ne_true h₂

/-- Each row index is the number of suffixes strictly below its own. -/
theorem lexCountLt_drop_saD {t : List Nat} {i : Nat} (hi : i < t.length) :
    lexCountLt t (t.drop ((sais t).getD i 0)) = i := by
  have hi' : i < (sais t).length := by rw [sais_length]; exact hi
  have h := sorted_countP_getElem (fun a b => suffix_lt_asymm a b)
    (sais_pairwise_lt t) i hi'
  have hperm : (sais t).countP (fun y => listLt (t.drop y) (t.drop ((sais t)[i]))) =
      (List.range t.length).countP
        (fun y => listLt (t.drop y) (t.drop ((sais t)[i]))) :=
    (sais_perm t).countP_eq _
  have hgetD : (sais t).getD i 0 = (sais t)[i] := by
    rw [List.getD_eq_getElem?_getD, List.getElem?_eq_getElem hi']
    rfl
  rw [lexCountLt, hgetD, ← hperm, h]

/-- The row of the suffix starting at `p` is `lexCountLt t (t.drop p)`. -/
theorem saD_lexCountLt {t : List Nat} {p : Nat} (hp : p < t.length) :
    (sais t).getD (lexCountLt t (t.drop p)) 0 = p := by
  have hmem : p ∈ sais t := mem_sais.mpr hp
  have h := sorted_getD_countP (fun a b => suffix_lt_asymm a b)
    (sais_pairwise_lt t) hmem 0
  have hperm : (sais t).countP (fun y => listLt (t.drop y) (t.drop p)) =
      (List.range t.length).countP (fun y => listLt (t.drop y) (t.drop p)) :=
    (sais_perm t).countP_eq _
  rw [lexCountLt, ← hperm, h]

theorem lexCountLt_drop_lt {t : List Nat} {p : Nat} (hp : p < t.length) :
    lexCountLt t (t.drop p) < t.length := by
  have hle : lexCountLt t (t.drop p) ≤ t.length := by
    rw [lexCountLt]
    calc (List.range t.length).countP _ ≤ (List.range t.length).length :=
          List.countP_le_length _
      _ = t.length := List.length_range t.length
  rcases Nat.lt_or_ge (lexCountLt t (t.drop p)) t.length with h | h
  · exact h
  · exfalso
    have heq : (List.range t.length).countP (fun k => listLt (t.drop k) (t.drop p)) =
        (List.range t.length).length := by
      rw [List.length_range]
      have : lexCountLt t (t.drop p) = t.length := by omega
      rw [lexCountLt] at this
      exact this
    have := List.countP_eq_length.mp heq p (by rw [List.mem_range]; exact hp)
    rw [listLt_irrefl] at this
    exact Bool.false_ne_true this

theorem bw_getD_eq_bwtOf {t : List Nat} (σ lvl : Nat) {i : Nat} (hi : i < t.length) :
    (FMIndex.new t σ lvl).bw.getD i 0 = bwtOf t ((sais t).getD i 0) := by
  have hi' : i < (sais t).length := by rw [sais_length]; exact hi
  exact getD_map (bwtOf t) hi' 0 0

theorem drop_sentinel (t₀ : List Nat) : (t₀ ++ [0]).drop t₀.length = [0] := by
  rw [List.drop_left]

theorem lexCountLt_sentinel (t₀ : List Nat) : lexCountLt (t₀ ++ [0]) [0] = 0 := by
  rw [lexCountLt, List.countP_eq_zero]
  intro k hk
  rw [drop_eq_getD_cons (List.mem_range.mp hk)]
  simp [listLt, listLt_nil]

/-- The LF map moves a row to the row of the cyclically previous text
position: `SA[LF(i)] = (SA[i] + n - 1) mod n`, for a text with a unique
sentinel. -/
theorem saD_LF {t₀ : List Nat} {σ lvl : Nat} (h0 : 0 ∉ t₀)
    (hσ : ∀ x ∈ t₀ ++ [0], x < σ) {i : Nat}
    (hi : i < (FMIndex.new (t₀ ++ [0]) σ lvl).len) :
    (FMIndex.new (t₀ ++ [0]) σ lvl).LF i < (FMIndex.new (t₀ ++ [0]) σ lvl).len ∧
      (sais (t₀ ++ [0])).getD ((FMIndex.new (t₀ ++ [0]) σ lvl).LF i) 0 =
        ((sais (t₀ ++ [0])).getD i 0 + (t₀ ++ [0]).length - 1) % (t₀ ++ [0]).length := by
  set t : List Nat := t₀ ++ [0] with ht
  set fm := FMIndex.new t σ lvl with hfm
  have hlen : fm.len = t.length := FMIndex.len_new t σ lvl
  have hn : 0 < t.length := by simp [ht]
  have hi' : i < t.length := by omega
  set p := (sais t).getD i 0 with hp
  have hplt : p < t.length := saD_lt hi'
  have haccess : WaveletMatrix.access fm.bw i = bwtOf t p :=
    bw_getD_eq_bwtOf σ lvl hi'
  have hLFdef : fm.LF i = fm.lf_map (bwtOf t p) i := by
    rw [FMIndex.LF, haccess]
  rcases Nat.eq_zero_or_pos p with hp0 | hp1
  · -- the row of the whole text: LF lands on the sentinel row 0
    have hbw0 : bwtOf t p = 0 := by
      rw [hp0]
      rfl
    have hrank : WaveletMatrix.rank fm.bw 0 i = 0 := by
      rw [rank_eq_countP_range, List.countP_eq_zero]
      intro j hj
      have hjbw : j < fm.bw.length := List.mem_range.mp hj
      have hjt : j < t.length := by
        have : fm.bw.length = t.length := bw_length t σ lvl
        omega
      by_contra hcon
      simp only [Bool.not_eq_false, Bool.and_eq_true, decide_eq_true_eq, beq_iff_eq] at hcon
      obtain ⟨hji, hj0⟩ := hcon
      rw [bw_getD_eq_bwtOf σ lvl hjt] at hj0
      have hsz : (sais t).getD j 0 = 0 := by
        by_contra hszne
        have hpos : 0 < (sais t).getD j 0 := Nat.pos_of_ne_zero hszne
        rw [bwtOf, if_pos hpos] at hj0
        have hjlt : (sais t).getD j 0 < t.length := saD_lt hjt
        have hlt0 : t.length = t₀.length + 1 := by simp [ht]
        have hbound : (sais t).getD j 0 - 1 < (t₀ ++ [0]).length := by
          rw [← ht]
          omega
        have heq := unique_sentinel_getD h0 hbound hj0
        omega
      have hji' : j = i := by
        have h₁ := lexCountLt_drop_saD hjt
        have h₂ := lexCountLt_drop_saD hi'
        rw [hsz] at h₁
        rw [← hp, hp0] at h₂
        omega
      omega
    have hLF0 : fm.LF i = 0 := by
      rw [hLFdef, hbw0, FMIndex.lf_map, hrank]
      have : fm.occs.getD 0 0 = 0 := occs_getD_zero t σ
      omega
    refine ⟨by omega, ?_⟩
    rw [hLF0, hp0]
    have hs0 : (sais t).getD 0 0 = t₀.length := by
      have hsent : t₀.length < t.length := by simp [ht]
      have hval := saD_lexCountLt hsent
      rw [ht, drop_sentinel, lexCountLt_sentinel] at hval
      rw [← ht] at hval
      exact hval
    rw [hs0]
    have hlt0 : t.length = t₀.length + 1 := by simp [ht]
    rw [Nat.mod_eq_of_lt (by omega)]
    omega
  · -- an interior step: LF follows the preceding character
    set c := t.getD (p - 1) 0 with hc
    have hbwc : bwtOf t p = c := by
      rw [bwtOf, if_pos hp1]
    have hcne : c ≠ 0 := by
      intro hcon
      have := unique_sentinel_getD h0 (by omega : p - 1 < t.length) (hc ▸ hcon)
      have hlt0 : t.length = t₀.length + 1 := by simp [ht]
      omega
    have hcσ : c < σ := by
      apply hσ
      rw [hc, List.getD_eq_getElem?_getD, List.getElem?_eq_getElem (by omega : p - 1 < t.length)]
      exact List.getElem_mem (by omega)
    have hieq : i = lexCountLt t (t.drop p) := (lexCountLt_drop_saD hi').symm
    have hstep := (lf_map_step t₀ σ lvl (Nat.pos_of_ne_zero hcne) hcσ (t.drop p)).1
    have hdropeq : t.drop (p - 1) = c :: t.drop p := by
      have := drop_eq_getD_cons (t := t) (by omega : p - 1 < t.length)
      rw [← hc] at this
      have hsucc : p - 1 + 1 = p := by omega
      rw [hsucc] at this
      exact this
    have hLFeq : fm.LF i = lexCountLt t (t.drop (p - 1)) := by
      rw [hLFdef, hbwc, hieq, hdropeq]
      exact hstep
    refine ⟨?_, ?_⟩
    · rw [hLFeq, hlen]
      exact lexCountLt_drop_lt (by omega)
    · rw [hLFeq, saD_lexCountLt (by omega : p - 1 < t.length)]
      have : (p + t.length - 1) % t.length = p - 1 := by
        have h1 : p + t.length - 1 = t.length + (p - 1) := by omega
        rw [h1, Nat.add_mod_left, Nat.mod_eq_of_lt (by omega)]
      omega

theorem mod_pred {a m : Nat} (h : a % m ≠ 0) : (a - 1) % m = a % m - 1 := by
  rcases Nat.eq_zero_or_pos m with rfl | hm
  · simp
  · have hdm := Nat.div_add_mod a m
    have hr : 1 ≤ a % m := Nat.pos_of_ne_zero h
    have h1 : a - 1 = m * (a / m) + (a % m - 1) := by omega
    rw [h1, Nat.mul_add_mod]
    exact Nat.mod_eq_of_lt (by have := Nat.mod_lt a hm; omega)

theorem suffix_array_sa (t : List Nat) (σ lvl : Nat) :
    (FMIndex.new t σ lvl).suffix_array.sa = sais t := rfl

theorem suffix_array_level (t : List Nat) (σ lvl : Nat) :
    (FMIndex.new t σ lvl).suffix_array.level = lvl := rfl

/-- The `get_sa` loop returns the suffix-array entry of its starting
row, given fuel at least the distance to the next sampled value. -/
theorem getSaLoop_correct {t₀ : List Nat} {σ lvl : Nat} (h0 : 0 ∉ t₀)
    (hσ : ∀ x ∈ t₀ ++ [0], x < σ) :
    ∀ (fuel i steps : Nat), i < (FMIndex.new (t₀ ++ [0]) σ lvl).len →
      (sais (t₀ ++ [0])).getD i 0 % 2 ^ lvl + 1 ≤ fuel →
      getSaLoop (FMIndex.new (t₀ ++ [0]) σ lvl) fuel i steps =
        some (((sais (t₀ ++ [0])).getD i 0 + steps) % (t₀ ++ [0]).length) := by
  intro fuel
  induction fuel with
  | zero => intro i steps _ h; omega
  | succ f ih =>
    intro i steps hi hfuel
    have hget : (FMIndex.new (t₀ ++ [0]) σ lvl).suffix_array.get i =
        (if (sais (t₀ ++ [0])).getD i 0 % 2 ^ lvl = 0
          then some ((sais (t₀ ++ [0])).getD i 0) else none) := rfl
    have hbwlen : (FMIndex.new (t₀ ++ [0]) σ lvl).bw.length = (t₀ ++ [0]).length :=
      bw_length (t₀ ++ [0]) σ lvl
    rw [getSaLoop, hget]
    by_cases hs : (sais (t₀ ++ [0])).getD i 0 % 2 ^ lvl = 0
    · rw [if_pos hs]
      simp only [hbwlen]
    · rw [if_neg hs]
      have hlf := saD_LF h0 hσ hi
      have hv : 0 < (sais (t₀ ++ [0])).getD i 0 := by
        rcases Nat.eq_zero_or_pos ((sais (t₀ ++ [0])).getD i 0) with hz | hp
        · rw [hz] at hs
          simp at hs
        · exact hp
      have hilen : i < (t₀ ++ [0]).length := by
        have := FMIndex.len_new (t₀ ++ [0]) σ lvl
        omega
      have hvlt : (sais (t₀ ++ [0])).getD i 0 < (t₀ ++ [0]).length := saD_lt hilen
      have hsa' : (sais (t₀ ++ [0])).getD ((FMIndex.new (t₀ ++ [0]) σ lvl).LF i) 0 =
          (sais (t₀ ++ [0])).getD i 0 - 1 := by
        rw [hlf.2]
        have h1 : (sais (t₀ ++ [0])).getD i 0 + (t₀ ++ [0]).length - 1 =
            (t₀ ++ [0]).length + ((sais (t₀ ++ [0])).getD i 0 - 1) := by omega
        rw [h1, Nat.add_mod_left, Nat.mod_eq_of_lt (by omega)]
      have hmod : (sais (t₀ ++ [0])).getD ((FMIndex.new (t₀ ++ [0]) σ lvl).LF i) 0 %
          2 ^ lvl = (sais (t₀ ++ [0])).getD i 0 % 2 ^ lvl - 1 := by
        rw [hsa']
        exact mod_pred hs
      have hrec := ih ((FMIndex.new (t₀ ++ [0]) σ lvl).LF i) (steps + 1) hlf.1
        (by omega)
      have hrw : (FMIndex.new (t₀ ++ [0]) σ lvl).lf_map
          (WaveletMatrix.access (FMIndex.new (t₀ ++ [0]) σ lvl).bw i) i =
          (FMIndex.new (t₀ ++ [0]) σ lvl).LF i := rfl
      rw [hrw, hrec, hsa']
      have : (sais (t₀ ++ [0])).getD i 0 - 1 + (steps + 1) =
          (sais (t₀ ++ [0])).getD i 0 + steps := by omega
      rw [this]

/-- `get_sa` recovers the suffix-array entry of every row. -/
theorem get_sa_eq_saD {t₀ : List Nat} {σ lvl : Nat} (h0 : 0 ∉ t₀)
    (hσ : ∀ x ∈ t₀ ++ [0], x < σ) {i : Nat}
    (hi : i < (FMIndex.new (t₀ ++ [0]) σ lvl).len) :
    (FMIndex.new (t₀ ++ [0]) σ lvl).get_sa i = (sais (t₀ ++ [0])).getD i 0 := by
  have hilen : i < (t₀ ++ [0]).length := by
    have := FMIndex.len_new (t₀ ++ [0]) σ lvl
    omega
  have hvlt : (sais (t₀ ++ [0])).getD i 0 < (t₀ ++ [0]).length := saD_lt hilen
  have hfuel : (sais (t₀ ++ [0])).getD i 0 % 2 ^ lvl + 1 ≤
      (FMIndex.new (t₀ ++ [0]) σ lvl).len := by
    have hmodle : (sais (t₀ ++ [0])).getD i 0 % 2 ^ lvl ≤ (sais (t₀ ++ [0])).getD i 0 :=
      Nat.mod_le _ _
    have := FMIndex.len_new (t₀ ++ [0]) σ lvl
    omega
  have h := getSaLoop_correct h0 hσ (FMIndex.new (t₀ ++ [0]) σ lvl).len i 0 hi hfuel
  rw [FMIndex.get_sa, h]
  simp only [Nat.add_zero, Option.getD_some]
  exact Nat.mod_eq_of_lt hvlt

theorem isPrefixOf_listLe : ∀ {q x : List Nat}, q.isPrefixOf x = true → listLe q x = true
  | [], x, _ => rfl
  | c :: q, [], h => by simp [List.isPrefixOf] at h
  | c :: q, a :: x, h => by
    simp only [List.isPrefixOf, Bool.and_eq_true, beq_iff_eq] at h
    obtain ⟨rfl, h⟩ := h
    simp [listLe, isPrefixOf_listLe h]

theorem not_listLt_iff_le {x q : List Nat} : listLt x q = false ↔ listLe q x = true := by
  constructor
  · intro h
    rcases listLe_total q x with h' | h'
    · exact h'
    · rcases (listLe_iff x q).mp h' with h'' | rfl
      · rw [h''] at h
        exact absurd h (by simp)
      · exact listLe_refl x
  · intro h
    by_contra hcon
    have hlt : listLt x q = true := by
      cases hx : listLt x q
      · exact absurd hx hcon
      · rfl
    have := listLt_of_lt_of_le hlt h
    rw [listLt_irrefl] at this
    exact Bool.false_ne_true this

theorem countP_lt_of_mono_witness {α : Type} {p q : α → Bool} :
    ∀ {l : List α}, (∀ x ∈ l, p x = true → q x = true) →
      ∀ {w : α}, w ∈ l → q w = true → p w = false → l.countP p < l.countP q
  | [], _, w, hw, _, _ => by simp at hw
  | a :: l, hmono, w, hw, hq, hp => by
    rcases List.mem_cons.mp hw with rfl | hw
    · have hple : l.countP p ≤ l.countP q :=
        List.countP_mono_left (fun x hx => hmono x (List.mem_cons_of_mem w hx))
      rw [List.countP_cons_of_neg _ _ (by simp [hp]), List.countP_cons_of_pos _ _ hq]
      omega
    · have hlt := countP_lt_of_mono_witness
        (fun x hx => hmono x (List.mem_cons_of_mem a hx)) hw hq hp
      rw [List.countP_cons, List.countP_cons]
      have : (if p a = true then 1 else 0) ≤ (if q a = true then 1 else 0) := by
        by_cases hpa : p a = true
        · simp [hpa, hmono a (List.mem_cons_self a l) hpa]
        · simp [hpa]
      omega

/-- A row lies in the block `[lexCountLt, lexCountLt + naiveOcc)` of a
pattern exactly when the pattern is a prefix of the row's suffix. -/
theorem row_in_block_iff {t : List Nat} (P : List Nat) {r : Nat} (hr : r < t.length) :
    (lexCountLt t P ≤ r ∧ r < lexCountLt t P + naiveOcc t P) ↔
      P.isPrefixOf (t.drop ((sais t).getD r 0)) = true := by
  have hp : (sais t).getD r 0 < t.length := saD_lt hr
  have hreq : r = lexCountLt t (t.drop ((sais t).getD r 0)) := (lexCountLt_drop_saD hr).symm
  set p := (sais t).getD r 0 with hpdef
  have hmemp : p ∈ List.range t.length := List.mem_range.mpr hp
  constructor
  · rintro ⟨hA, hAB⟩
    have hnotlt : listLt (t.drop p) P = false := by
      cases hx : listLt (t.drop p) P
      · rfl
      · exfalso
        have hmono : ∀ k ∈ List.range t.length,
            listLt (t.drop k) (t.drop p) = true → listLt (t.drop k) P = true :=
          fun k _ hk => listLt_trans hk hx
        have hwit := countP_lt_of_mono_witness hmono hmemp hx (listLt_irrefl _)
        rw [← lexCountLt, ← lexCountLt, ← hreq] at hwit
        omega
    have hle : listLe P (t.drop p) = true := not_listLt_iff_le.mp hnotlt
    by_contra hpre
    have hpre' : P.isPrefixOf (t.drop p) = false := by
      cases hx : P.isPrefixOf (t.drop p)
      · rfl
      · exact absurd hx hpre
    have hmono : ∀ k ∈ List.range t.length,
        (listLt (t.drop k) P || P.isPrefixOf (t.drop k)) = true →
          listLt (t.drop k) (t.drop p) = true := by
      intro k _ hk
      rcases Bool.or_eq_true _ _ |>.mp hk with h | h
      · exact listLt_of_lt_of_le h hle
      · have hnotle : listLe (t.drop p) (t.drop k) = false := by
          cases hx : listLe (t.drop p) (t.drop k)
          · rfl
          · exfalso
            rcases listLe_prefix_cases hx h with h' | h'
            · rw [h'] at hpre'
              simp at hpre'
            · rw [h'] at hnotlt
              simp at hnotlt
        rcases listLe_total (t.drop p) (t.drop k) with h' | h'
        · rw [h'] at hnotle
          exact absurd hnotle (by simp)
        · apply listLt_iff_le_ne.mpr
          refine ⟨h', ?_⟩
          intro heq
          rw [heq, listLe_refl] at hnotle
          exact absurd hnotle (by simp)
    have hcount : (List.range t.length).countP
        (fun k => listLt (t.drop k) P || P.isPrefixOf (t.drop k)) ≤
        (List.range t.length).countP (fun k => listLt (t.drop k) (t.drop p)) :=
      List.countP_mono_left hmono
    rw [countP_lexLe, ← lexCountLt, ← hreq] at hcount
    omega
  · intro hpre
    have hle : listLe P (t.drop p) = true := isPrefixOf_listLe hpre
    constructor
    · have hmono : ∀ k ∈ List.range t.length,
          listLt (t.drop k) P = true → listLt (t.drop k) (t.drop p) = true :=
        fun k _ hk => listLt_of_lt_of_le hk hle
      have := List.countP_mono_left hmono (l := List.range t.length)
      rw [← lexCountLt, ← lexCountLt, ← hreq] at this
      exact this
    · have hmono : ∀ k ∈ List.range t.length,
          listLt (t.drop k) (t.drop p) = true →
            (listLt (t.drop k) P || P.isPrefixOf (t.drop k)) = true := by
        intro k _ hk
        have hlek : listLe (t.drop k) (t.drop p) = true := listLe_of_lt hk
        rcases listLe_prefix_cases hlek hpre with h | h
        · exact Bool.or_eq_true _ _ |>.mpr (Or.inr h)
        · exact Bool.or_eq_true _ _ |>.mpr (Or.inl h)
      have hwit := countP_lt_of_mono_witness hmono hmemp
        (by rw [Bool.or_eq_true]; exact Or.inr hpre) (listLt_irrefl _)
      rw [countP_lexLe, ← lexCountLt, ← hreq] at hwit
      exact hwit

theorem lexCountLe_le_length (t P : List Nat) :
    lexCountLt t P + naiveOcc t P ≤ t.length := by
  rw [← countP_lexLe]
  calc (List.range t.length).countP _ ≤ (List.range t.length).length :=
        List.countP_le_length _
    _ = t.length := List.length_range t.length

/-- `locate` returns exactly the starting positions of the pattern, for
a unique-sentinel text and an in-alphabet sentinel-free pattern. -/
theorem locate_correct {t₀ : List Nat} {σ lvl : Nat} {P : List Nat} (h0 : 0 ∉ t₀)
    (hσ : ∀ x ∈ t₀ ++ [0], x < σ) (hP : ∀ x ∈ P, 0 < x ∧ x < σ) (pos : Nat) :
    pos ∈ Search.locate (FMIndex.new (t₀ ++ [0]) σ lvl)
        ((FMIndex.new (t₀ ++ [0]) σ lvl).search_backward P) ↔
      (pos < (t₀ ++ [0]).length ∧ P.isPrefixOf ((t₀ ++ [0]).drop pos) = true) := by
  set t : List Nat := t₀ ++ [0] with ht
  set fm := FMIndex.new t σ lvl with hfm
  have hlen : fm.len = t.length := FMIndex.len_new t σ lvl
  have hbase₂ : fm.len = lexCountLt t [] + naiveOcc t [] := by
    rw [lexCountLt_nil, naiveOcc_nil, hlen]
    omega
  have hchars : ∀ x ∈ P.reverse, 0 < x ∧ x < σ := fun x hx => hP x (List.mem_reverse.mp hx)
  have h := backwardLoop_correct t₀ σ lvl P.reverse [] 0 fm.len hchars
    (lexCountLt_nil _).symm hbase₂
  rw [List.reverse_reverse, List.append_nil, ← ht, ← hfm] at h
  have hmem : pos ∈ Search.locate fm (fm.search_backward P) ↔
      ∃ j < (backwardLoop fm 0 fm.len P.reverse).2 -
          (backwardLoop fm 0 fm.len P.reverse).1,
        fm.get_sa ((backwardLoop fm 0 fm.len P.reverse).1 + j) = pos := by
    rw [Search.locate, List.mem_map]
    constructor
    · rintro ⟨j, hj, hval⟩
      exact ⟨j, List.mem_range.mp hj, hval⟩
    · rintro ⟨j, hj, hval⟩
      exact ⟨j, List.mem_range.mpr hj, hval⟩
  rcases h with hcase | hcase
  · rw [hmem, hcase]
    simp only []
    constructor
    · rintro ⟨j, hj, hval⟩
      set r := lexCountLt t P + j with hrdef
      have hrA : lexCountLt t P ≤ r := by omega
      have hrAB : r < lexCountLt t P + naiveOcc t P := by omega
      have hrn : r < t.length := by
        have := lexCountLe_le_length t P
        omega
      have hrlen : r < fm.len := by omega
      have hsa := get_sa_eq_saD h0 hσ hrlen
      have hblock := (row_in_block_iff P hrn).mp ⟨hrA, hrAB⟩
      rw [hsa] at hval
      rw [← hval]
      exact ⟨saD_lt hrn, hblock⟩
    · rintro ⟨hposn, hpre⟩
      set r := lexCountLt t (t.drop pos) with hrdef
      have hrn : r < t.length := lexCountLt_drop_lt hposn
      have hsaD : (sais t).getD r 0 = pos := saD_lexCountLt hposn
      have hblock := (row_in_block_iff P hrn).mpr (by rw [hsaD]; exact hpre)
      refine ⟨r - lexCountLt t P, by omega, ?_⟩
      have hradd : lexCountLt t P + (r - lexCountLt t P) = r := by omega
      rw [hradd, get_sa_eq_saD h0 hσ (by omega : r < fm.len), hsaD]
  · rw [hmem]
    constructor
    · rintro ⟨j, hj, -⟩
      omega
    · rintro ⟨hposn, hpre⟩
      exfalso
      have hz := hcase.2
      rw [naiveOcc, List.countP_eq_zero] at hz
      exact hz pos (List.mem_range.mpr hposn) hpre

/-- Along the LF orbit the suffix-array value decreases by one per step,
cyclically: adding the step count to it is invariant modulo `n`. -/
theorem saD_LF_iter {t₀ : List Nat} {σ lvl : Nat} (h0 : 0 ∉ t₀)
    (hσ : ∀ x ∈ t₀ ++ [0], x < σ) :
    ∀ (k : Nat) {i : Nat}, i < (FMIndex.new (t₀ ++ [0]) σ lvl).len →
      (FMIndex.new (t₀ ++ [0]) σ lvl).LF^[k] i < (FMIndex.new (t₀ ++ [0]) σ lvl).len ∧
        ((sais (t₀ ++ [0])).getD ((FMIndex.new (t₀ ++ [0]) σ lvl).LF^[k] i) 0 + k) %
            (t₀ ++ [0]).length =
          (sais (t₀ ++ [0])).getD i 0 % (t₀ ++ [0]).length := by
  intro k
  induction k with
  | zero => intro i hi; exact ⟨hi, rfl⟩
  | succ k ih =>
    intro i hi
    obtain ⟨hklt, hkeq⟩ := ih hi
    have hlf := saD_LF h0 hσ hklt
    rw [Function.iterate_succ_apply']
    refine ⟨hlf.1, ?_⟩
    rw [hlf.2]
    have hn : 0 < (t₀ ++ [0]).length := by simp
    have hsa := saD_lt (t := t₀ ++ [0])
      (i := (FMIndex.new (t₀ ++ [0]) σ lvl).LF^[k] i)
      (by have := FMIndex.len_new (t₀ ++ [0]) σ lvl; omega)
    rw [Nat.mod_add_mod]
    have harith : (sais (t₀ ++ [0])).getD ((FMIndex.new (t₀ ++ [0]) σ lvl).LF^[k] i) 0 +
        (t₀ ++ [0]).length - 1 + (k + 1) =
        (sais (t₀ ++ [0])).getD ((FMIndex.new (t₀ ++ [0]) σ lvl).LF^[k] i) 0 + k +
          (t₀ ++ [0]).length := by
      omega
    rw [harith, Nat.add_mod_right, hkeq]

/-- The position of the suffix-array value along the orbit determines
the step count below `n`: the orbit is injective on `[0, n)`. -/
theorem LF_iter_inj {t₀ : List Nat} {σ lvl : Nat} (h0 : 0 ∉ t₀)
    (hσ : ∀ x ∈ t₀ ++ [0], x < σ) {i : Nat}
    (hi : i < (FMIndex.new (t₀ ++ [0]) σ lvl).len) {k k' : Nat}
    (hk : k < (FMIndex.new (t₀ ++ [0]) σ lvl).len)
    (hk' : k' < (FMIndex.new (t₀ ++ [0]) σ lvl).len)
    (heq : (FMIndex.new (t₀ ++ [0]) σ lvl).LF^[k] i =
      (FMIndex.new (t₀ ++ [0]) σ lvl).LF^[k'] i) : k = k' := by
  obtain ⟨h₁, e₁⟩ := saD_LF_iter h0 hσ k hi
  obtain ⟨h₂, e₂⟩ := saD_LF_iter h0 hσ k' hi
  rw [heq] at e₁
  have hmod : ((sais (t₀ ++ [0])).getD ((FMIndex.new (t₀ ++ [0]) σ lvl).LF^[k'] i) 0 + k) %
      (t₀ ++ [0]).length =
      ((sais (t₀ ++ [0])).getD ((FMIndex.new (t₀ ++ [0]) σ lvl).LF^[k'] i) 0 + k') %
      (t₀ ++ [0]).length := by
    rw [e₁, e₂]
  have hcancel : k % (t₀ ++ [0]).length = k' % (t₀ ++ [0]).length :=
    Nat.ModEq.add_left_cancel' _ hmod
  have hlt : (t₀ ++ [0]).length = (FMIndex.new (t₀ ++ [0]) σ lvl).len :=
    (FMIndex.len_new (t₀ ++ [0]) σ lvl).symm
  rw [Nat.mod_eq_of_lt (by omega), Nat.mod_eq_of_lt (by omega)] at hcancel
  exact hcancel

/-- After `n` LF steps every row returns to itself. -/
theorem LF_iter_len {t₀ : List Nat} {σ lvl : Nat} (h0 : 0 ∉ t₀)
    (hσ : ∀ x ∈ t₀ ++ [0], x < σ) {i : Nat}
    (hi : i < (FMIndex.new (t₀ ++ [0]) σ lvl).len) :
    (FMIndex.new (t₀ ++ [0]) σ lvl).LF^[(FMIndex.new (t₀ ++ [0]) σ lvl).len] i = i := by
  obtain ⟨hlt, heq⟩ := saD_LF_iter h0 hσ (FMIndex.new (t₀ ++ [0]) σ lvl).len hi
  have hlen : (FMIndex.new (t₀ ++ [0]) σ lvl).len = (t₀ ++ [0]).length :=
    FMIndex.len_new (t₀ ++ [0]) σ lvl
  have hilen : i < (t₀ ++ [0]).length := by omega
  have hklen : (FMIndex.new (t₀ ++ [0]) σ lvl).LF^[(FMIndex.new (t₀ ++ [0]) σ lvl).len] i <
      (t₀ ++ [0]).length := by omega
  nth_rewrite 2 [hlen] at heq
  rw [Nat.add_mod_right] at heq
  have hsa₁ := saD_lt (t := t₀ ++ [0]) hklen
  have hsa₂ := saD_lt (t := t₀ ++ [0]) hilen
  rw [Nat.mod_eq_of_lt hsa₁, Nat.mod_eq_of_lt hsa₂] at heq
  have h₁ := lexCountLt_drop_saD (t := t₀ ++ [0]) hklen
  have h₂ := lexCountLt_drop_saD (t := t₀ ++ [0]) hilen
  rw [heq] at h₁
  omega

/-- The LF orbit of any row visits every row: combined with injectivity
this is the single-cycle property of the BWT. -/
theorem LF_iter_surj {t₀ : List Nat} {σ lvl : Nat} (h0 : 0 ∉ t₀)
    (hσ : ∀ x ∈ t₀ ++ [0], x < σ) {i : Nat}
    (hi : i < (FMIndex.new (t₀ ++ [0]) σ lvl).len) {r : Nat}
    (hr : r < (FMIndex.new (t₀ ++ [0]) σ lvl).len) :
    ∃ k < (FMIndex.new (t₀ ++ [0]) σ lvl).len,
      (FMIndex.new (t₀ ++ [0]) σ lvl).LF^[k] i = r := by
  set n := (FMIndex.new (t₀ ++ [0]) σ lvl).len with hn
  set S : Finset Nat := (Finset.range n).image
    (fun k => (FMIndex.new (t₀ ++ [0]) σ lvl).LF^[k] i) with hS
  have hinj : Set.InjOn (fun k => (FMIndex.new (t₀ ++ [0]) σ lvl).LF^[k] i)
      (Finset.range n) := by
    intro a ha b hb hab
    exact LF_iter_inj h0 hσ hi (Finset.mem_range.mp ha) (Finset.mem_range.mp hb) hab
  have hcard : S.card = n := by
    rw [hS, Finset.card_image_of_injOn hinj, Finset.card_range]
  have hsub : S ⊆ Finset.range n := by
    intro x hx
    rw [hS, Finset.mem_image] at hx
    obtain ⟨k, hk, hkx⟩ := hx
    rw [Finset.mem_range]
    rw [← hkx]
    exact (saD_LF_iter h0 hσ k hi).1
  have hSeq : S = Finset.range n := Finset.eq_of_subset_of_card_le hsub
    (by rw [hcard, Finset.card_range])
  have hrS : r ∈ S := by
    rw [hSeq, Finset.mem_range]
    exact hr
  rw [hS, Finset.mem_image] at hrS
  obtain ⟨k, hk, hkr⟩ := hrS
  exact ⟨k, Finset.mem_range.mp hk, hkr⟩

/-- LF steps undo the same number of FL steps. -/
theorem LF_iter_FL_iter {t₀ : List Nat} {σ lvl : Nat}
    (hσ : ∀ x ∈ t₀ ++ [0], x < σ) :
    ∀ (k : Nat) {i : Nat}, i < (FMIndex.new (t₀ ++ [0]) σ lvl).len →
      (FMIndex.new (t₀ ++ [0]) σ lvl).FL^[k] i < (FMIndex.new (t₀ ++ [0]) σ lvl).len ∧
        (FMIndex.new (t₀ ++ [0]) σ lvl).LF^[k]
          ((FMIndex.new (t₀ ++ [0]) σ lvl).FL^[k] i) = i := by
  intro k
  induction k with
  | zero => intro i hi; exact ⟨hi, rfl⟩
  | succ k ih =>
    intro i hi
    obtain ⟨hfl₁, hfl₂⟩ := LF_FL_eq hσ hi
    obtain ⟨hk₁, hk₂⟩ := ih hfl₁
    rw [Function.iterate_succ_apply]
    refine ⟨hk₁, ?_⟩
    rw [Function.iterate_succ_apply', hk₂, hfl₂]

/-- After `n` FL steps every row returns to itself. -/
theorem FL_iter_len {t₀ : List Nat} {σ lvl : Nat} (h0 : 0 ∉ t₀)
    (hσ : ∀ x ∈ t₀ ++ [0], x < σ) {i : Nat}
    (hi : i < (FMIndex.new (t₀ ++ [0]) σ lvl).len) :
    (FMIndex.new (t₀ ++ [0]) σ lvl).FL^[(FMIndex.new (t₀ ++ [0]) σ lvl).len] i = i := by
  obtain ⟨h₁, h₂⟩ := LF_iter_FL_iter hσ (FMIndex.new (t₀ ++ [0]) σ lvl).len hi
  have h₃ := LF_iter_len h0 hσ h₁
  rw [h₃] at h₂
  exact h₂

/-- C1 (counterexample): as stated the claim fails.  On the text
`[1,2,0]` (codes of "ab" plus the sentinel) the pattern `[0,1,2]` is
counted once by `search_backward` — a phantom match wrapping around the
sentinel — while the naive scanner finds no occurrence. -/
theorem claim_C1_counterexample :
    ((FMIndex.new [1, 2, 0] 3 0).search_backward [0, 1, 2]).count ≠
      naiveOcc [1, 2, 0] [0, 1, 2] := by
  decide

/-- C1 (amended): for every sentinel-terminated text and every non-empty
pattern whose symbols are in-alphabet and distinct from the sentinel,
`search_backward(P).count()` equals the number of occurrences of `P` in
the indexed text as counted by a naive scanner. -/
theorem claim_C1 (t₀ : List Nat) (σ lvl : Nat) (P : List Nat) (hne : P ≠ [])
    (hP : ∀ x ∈ P, 0 < x ∧ x < σ) :
    ((FMIndex.new (t₀ ++ [0]) σ lvl).search_backward P).count =
      naiveOcc (t₀ ++ [0]) P :=
  count_eq_naiveOcc hP

/-- C1 (witness): the amended statement at the text "ab", pattern "a". -/
theorem claim_C1_witness :
    ([1] : List Nat) ≠ [] ∧ (∀ x ∈ ([1] : List Nat), 0 < x ∧ x < 3) ∧
      ((FMIndex.new ([1, 2] ++ [0]) 3 0).search_backward [1]).count =
        naiveOcc ([1, 2] ++ [0]) [1] :=
  ⟨by decide, by decide, claim_C1 [1, 2] 3 0 [1] (by decide) (by decide)⟩

/-- C2 (counterexample): as stated the claim fails.  On the text
`[1,2,0]` with a level-1 sampled suffix array, `locate` of the
sentinel-wrapping pattern `[0,1,2]` returns position 2, where the
pattern does not start. -/
theorem claim_C2_counterexample :
    2 ∈ Search.locate (FMIndex.new [1, 2, 0] 3 1)
        ((FMIndex.new [1, 2, 0] 3 1).search_backward [0, 1, 2]) ∧
      ([0, 1, 2] : List Nat).isPrefixOf (([1, 2, 0] : List Nat).drop 2) = false := by
  decide

/-- C2 (amended): for every index over a unique-sentinel text built with
a sampled suffix array at any level and every pattern of in-alphabet
non-sentinel symbols, `locate` returns a vector of length `count()`
containing exactly the set of starting offsets of the pattern, produced
one entry per row `k` from `s` up to `e - 1` in increasing row order. -/
theorem claim_C2 (t₀ : List Nat) (σ lvl : Nat) (P : List Nat) (h0 : 0 ∉ t₀)
    (hσ : ∀ x ∈ t₀ ++ [0], x < σ) (hP : ∀ x ∈ P, 0 < x ∧ x < σ) :
    (Search.locate (FMIndex.new (t₀ ++ [0]) σ lvl)
        ((FMIndex.new (t₀ ++ [0]) σ lvl).search_backward P)).length =
      ((FMIndex.new (t₀ ++ [0]) σ lvl).search_backward P).count ∧
    (∀ pos, pos ∈ Search.locate (FMIndex.new (t₀ ++ [0]) σ lvl)
        ((FMIndex.new (t₀ ++ [0]) σ lvl).search_backward P) ↔
      (pos < (t₀ ++ [0]).length ∧ P.isPrefixOf ((t₀ ++ [0]).drop pos) = true)) ∧
    Search.locate (FMIndex.new (t₀ ++ [0]) σ lvl)
        ((FMIndex.new (t₀ ++ [0]) σ lvl).search_backward P) =
      (List.range (((FMIndex.new (t₀ ++ [0]) σ lvl).search_backward P).count)).map
        (fun j => (FMIndex.new (t₀ ++ [0]) σ lvl).get_sa
          (((FMIndex.new (t₀ ++ [0]) σ lvl).search_backward P).s + j)) := by
  refine ⟨?_, fun pos => locate_correct h0 hσ hP pos, rfl⟩
  rw [Search.locate, List.length_map, List.length_range]
  rfl

/-- C2 (witness): the amended statement at the text "ab", pattern "b",
sampling level 1. -/
theorem claim_C2_witness :
    (0 ∉ ([1, 2] : List Nat)) ∧ (∀ x ∈ ([1, 2] : List Nat) ++ [0], x < 3) ∧
      (∀ x ∈ ([2] : List Nat), 0 < x ∧ x < 3) ∧
      ((Search.locate (FMIndex.new ([1, 2] ++ [0]) 3 1)
          ((FMIndex.new ([1, 2] ++ [0]) 3 1).search_backward [2])).length =
        ((FMIndex.new ([1, 2] ++ [0]) 3 1).search_backward [2]).count ∧
      (∀ pos, pos ∈ Search.locate (FMIndex.new ([1, 2] ++ [0]) 3 1)
          ((FMIndex.new ([1, 2] ++ [0]) 3 1).search_backward [2]) ↔
        (pos < (([1, 2] : List Nat) ++ [0]).length ∧
          ([2] : List Nat).isPrefixOf ((([1, 2] : List Nat) ++ [0]).drop pos) = true)) ∧
      Search.locate (FMIndex.new ([1, 2] ++ [0]) 3 1)
          ((FMIndex.new ([1, 2] ++ [0]) 3 1).search_backward [2]) =
        (List.range (((FMIndex.new ([1, 2] ++ [0]) 3 1).search_backward [2]).count)).map
          (fun j => (FMIndex.new ([1, 2] ++ [0]) 3 1).get_sa
            (((FMIndex.new ([1, 2] ++ [0]) 3 1).search_backward [2]).s + j))) :=
  ⟨by decide, by decide, by decide,
    claim_C2 [1, 2] 3 1 [2] (by decide) (by decide) (by decide)⟩

/-- C3: searching a concatenation equals searching the suffix and then
extending the cursor with the prefix, up to `count`; the extended
cursor's accumulated pattern is the new pattern followed by the old. -/
theorem claim_C3 (t : List Nat) (σ lvl : Nat) (P Q : List Nat) :
    ((FMIndex.new t σ lvl).search_backward (P ++ Q)).count =
      (Search.search_backward (FMIndex.new t σ lvl)
        ((FMIndex.new t σ lvl).search_backward Q) P).count ∧
    (Search.search_backward (FMIndex.new t σ lvl)
        ((FMIndex.new t σ lvl).search_backward Q) P).pattern =
      P ++ ((FMIndex.new t σ lvl).search_backward Q).pattern := by
  refine ⟨?_, rfl⟩
  have hL : ((FMIndex.new t σ lvl).search_backward (P ++ Q)).count =
      (backwardLoop (FMIndex.new t σ lvl) 0 (FMIndex.new t σ lvl).len
          (Q.reverse ++ P.reverse)).2 -
        (backwardLoop (FMIndex.new t σ lvl) 0 (FMIndex.new t σ lvl).len
          (Q.reverse ++ P.reverse)).1 := by
    rw [show (Q.reverse ++ P.reverse) = (P ++ Q).reverse from (List.reverse_append P Q).symm]
    rfl
  have hR : (Search.search_backward (FMIndex.new t σ lvl)
      ((FMIndex.new t σ lvl).search_backward Q) P).count =
      (backwardLoop (FMIndex.new t σ lvl)
          (backwardLoop (FMIndex.new t σ lvl) 0 (FMIndex.new t σ lvl).len Q.reverse).1
          (backwardLoop (FMIndex.new t σ lvl) 0 (FMIndex.new t σ lvl).len Q.reverse).2
          P.reverse).2 -
        (backwardLoop (FMIndex.new t σ lvl)
          (backwardLoop (FMIndex.new t σ lvl) 0 (FMIndex.new t σ lvl).len Q.reverse).1
          (backwardLoop (FMIndex.new t σ lvl) 0 (FMIndex.new t σ lvl).len Q.reverse).2
          P.reverse).1 := rfl
  rw [hL, hR]
  rcases backwardLoop_append (FMIndex.new t σ lvl) Q.reverse P.reverse 0
      (FMIndex.new t σ lvl).len with h | ⟨h₁, h₂⟩
  · rw [h]
  · rw [h₁]
    have hboth := backwardLoop_empty (FMIndex.new t σ lvl) P.reverse
      (backwardLoop (FMIndex.new t σ lvl) 0 (FMIndex.new t σ lvl).len Q.reverse).1
    rw [← h₂]
    omega

/-- C4: for every index over a sentinel-terminated text with codes in
the alphabet and every row `i`, the LF and FL maps are mutually inverse:
`FL (LF i) = i` and `LF (FL i) = i`. -/
theorem claim_C4 (t₀ : List Nat) (σ lvl : Nat) (hσ : ∀ x ∈ t₀ ++ [0], x < σ) (i : Nat)
    (hi : i < (FMIndex.new (t₀ ++ [0]) σ lvl).len) :
    (FMIndex.new (t₀ ++ [0]) σ lvl).FL ((FMIndex.new (t₀ ++ [0]) σ lvl).LF i) = i ∧
      (FMIndex.new (t₀ ++ [0]) σ lvl).LF ((FMIndex.new (t₀ ++ [0]) σ lvl).FL i) = i :=
  ⟨(FL_LF_eq hσ hi).2, (LF_FL_eq hσ hi).2⟩

/-- C4 (witness): the inverse laws at the text "ab", row 1. -/
theorem claim_C4_witness :
    (∀ x ∈ ([1, 2] : List Nat) ++ [0], x < 3) ∧
      (1 < (FMIndex.new ([1, 2] ++ [0]) 3 0).len ∧
        ((FMIndex.new ([1, 2] ++ [0]) 3 0).FL ((FMIndex.new ([1, 2] ++ [0]) 3 0).LF 1) = 1 ∧
          (FMIndex.new ([1, 2] ++ [0]) 3 0).LF
            ((FMIndex.new ([1, 2] ++ [0]) 3 0).FL 1) = 1)) :=
  ⟨by decide, by decide, claim_C4 [1, 2] 3 0 (by decide) 1 (by decide)⟩

/-- C5: every cursor built by a search satisfies `s ≤ e ≤ len`, the
invariant is preserved by every extension, and an empty cursor stays
empty under extension. -/
theorem claim_C5 (t₀ : List Nat) (σ lvl : Nat) :
    (∀ P : List Nat, ((FMIndex.new (t₀ ++ [0]) σ lvl).search_backward P).s ≤
        ((FMIndex.new (t₀ ++ [0]) σ lvl).search_backward P).e ∧
      ((FMIndex.new (t₀ ++ [0]) σ lvl).search_backward P).e ≤
        (FMIndex.new (t₀ ++ [0]) σ lvl).len) ∧
    (∀ (cur : Search) (P : List Nat), cur.s ≤ cur.e →
      cur.e ≤ (FMIndex.new (t₀ ++ [0]) σ lvl).len →
      (Search.search_backward (FMIndex.new (t₀ ++ [0]) σ lvl) cur P).s ≤
          (Search.search_backward (FMIndex.new (t₀ ++ [0]) σ lvl) cur P).e ∧
        (Search.search_backward (FMIndex.new (t₀ ++ [0]) σ lvl) cur P).e ≤
          (FMIndex.new (t₀ ++ [0]) σ lvl).len) ∧
    (∀ (cur : Search) (P : List Nat), cur.s = cur.e →
      (Search.search_backward (FMIndex.new (t₀ ++ [0]) σ lvl) cur P).s =
        (Search.search_backward (FMIndex.new (t₀ ++ [0]) σ lvl) cur P).e) := by
  refine ⟨?_, ?_, ?_⟩
  · intro P
    exact backwardLoop_invariant P.reverse 0 (FMIndex.new (t₀ ++ [0]) σ lvl).len
      (Nat.zero_le _) (le_refl _)
  · intro cur P h₁ h₂
    exact backwardLoop_invariant P.reverse cur.s cur.e h₁ h₂
  · intro cur P h
    show (backwardLoop (FMIndex.new (t₀ ++ [0]) σ lvl) cur.s cur.e P.reverse).1 =
      (backwardLoop (FMIndex.new (t₀ ++ [0]) σ lvl) cur.s cur.e P.reverse).2
    rw [h]
    exact backwardLoop_empty (FMIndex.new (t₀ ++ [0]) σ lvl) P.reverse cur.e

/-- C5 (witness): the preservation part at a concrete cursor. -/
theorem claim_C5_witness :
    ((⟨0, 3, []⟩ : Search).s ≤ (⟨0, 3, []⟩ : Search).e) ∧
      ((⟨0, 3, []⟩ : Search).e ≤ (FMIndex.new ([1, 2] ++ [0]) 3 0).len) ∧
      ((Search.search_backward (FMIndex.new ([1, 2] ++ [0]) 3 0) ⟨0, 3, []⟩ [1]).s ≤
          (Search.search_backward (FMIndex.new ([1, 2] ++ [0]) 3 0) ⟨0, 3, []⟩ [1]).e ∧
        (Search.search_backward (FMIndex.new ([1, 2] ++ [0]) 3 0) ⟨0, 3, []⟩ [1]).e ≤
          (FMIndex.new ([1, 2] ++ [0]) 3 0).len) :=
  ⟨by decide, by decide,
    (claim_C5 [1, 2] 3 0).2.1 ⟨0, 3, []⟩ [1] (by decide) (by decide)⟩

/-- C6: searching with an empty pattern leaves the cursor at the full
range `[0, n)` and `count` equals `n`, the indexed length. -/
theorem claim_C6 (t : List Nat) (σ lvl : Nat) :
    ((FMIndex.new t σ lvl).search_backward []).s = 0 ∧
      ((FMIndex.new t σ lvl).search_backward []).e = (FMIndex.new t σ lvl).len ∧
      ((FMIndex.new t σ lvl).search_backward []).count = (FMIndex.new t σ lvl).len ∧
      (FMIndex.new t σ lvl).len = t.length := by
  refine ⟨rfl, rfl, ?_, FMIndex.len_new t σ lvl⟩
  show (FMIndex.new t σ lvl).len - 0 = (FMIndex.new t σ lvl).len
  omega

/-- C7: construction through the frontend ensures the text ends with the
sentinel, appending it when absent, so for an input text that does not
end with the sentinel the built index's `len()` is one more than the
input length. -/
theorem claim_C7 (t : List Nat) (σ lvl : Nat) (h : t.getLast? ≠ some 0) :
    (FMIndex.create t σ lvl).len = t.length + 1 := by
  rw [FMIndex.create, ensure_sentinel, if_neg h, FMIndex.len_new]
  simp

/-- C7 (witness): the sentinel is appended to the text "ab". -/
theorem claim_C7_witness :
    (([1, 2] : List Nat).getLast? ≠ some 0) ∧
      (FMIndex.create [1, 2] 3 0).len = ([1, 2] : List Nat).length + 1 :=
  ⟨by decide, claim_C7 [1, 2] 3 0 (by decide)⟩

theorem occs_length_new (t : List Nat) (σ lvl : Nat) :
    (FMIndex.new t σ lvl).occs.length = σ + 1 :=
  get_bucket_start_pos_length t σ

theorem rank_top_zero {t₀ : List Nat} {σ lvl : Nat} (hσ : ∀ x ∈ t₀ ++ [0], x < σ)
    (i : Nat) : WaveletMatrix.rank (FMIndex.new (t₀ ++ [0]) σ lvl).bw σ i = 0 := by
  have hzero : (FMIndex.new (t₀ ++ [0]) σ lvl).bw.countP (fun x => x == σ) = 0 := by
    rw [(bw_new_perm t₀ σ lvl).countP_eq, List.countP_eq_zero]
    intro a ha
    have := hσ a ha
    simp only [beq_iff_eq]
    omega
  have hle := rank_le_countP (FMIndex.new (t₀ ++ [0]) σ lvl).bw σ i
  omega

/-- The checked backward-search loop, applied to characters at most `σ`
among which the overflowing code `σ` occurs, succeeds and ends with an
empty range. -/
theorem backwardLoopChecked_top {t₀ : List Nat} {σ lvl : Nat}
    (hσ : ∀ x ∈ t₀ ++ [0], x < σ) :
    ∀ (l₁ l₂ : List Nat) (s e : Nat), (∀ x ∈ l₁, x ≤ σ) →
      ∃ p, backwardLoopChecked (FMIndex.new (t₀ ++ [0]) σ lvl) s e (l₁ ++ σ :: l₂) =
          some p ∧ p.1 = p.2 := by
  intro l₁
  induction l₁ with
  | nil =>
    intro l₂ s e _
    have hlt : σ < (FMIndex.new (t₀ ++ [0]) σ lvl).occs.length := by
      rw [occs_length_new]
      omega
    have hchk : ∀ i, (FMIndex.new (t₀ ++ [0]) σ lvl).lf_map_checked σ i =
        some ((FMIndex.new (t₀ ++ [0]) σ lvl).occs.getD σ 0 +
          WaveletMatrix.rank (FMIndex.new (t₀ ++ [0]) σ lvl).bw σ i) := by
      intro i
      rw [FMIndex.lf_map_checked, if_pos hlt]
    have hre : ∀ i, (FMIndex.new (t₀ ++ [0]) σ lvl).occs.getD σ 0 +
        WaveletMatrix.rank (FMIndex.new (t₀ ++ [0]) σ lvl).bw σ i =
        (FMIndex.new (t₀ ++ [0]) σ lvl).occs.getD σ 0 := by
      intro i
      rw [rank_top_zero hσ]
      omega
    simp only [List.nil_append, backwardLoopChecked, hchk, hre]
    simp only [if_true]
    exact ⟨_, rfl, rfl⟩
  | cons c rest ih =>
    intro l₂ s e hle
    have hcσ : c ≤ σ := hle c (List.mem_cons_self c rest)
    have hclt : c < (FMIndex.new (t₀ ++ [0]) σ lvl).occs.length := by
      rw [occs_length_new]
      omega
    have hchk : ∀ i, (FMIndex.new (t₀ ++ [0]) σ lvl).lf_map_checked c i =
        some ((FMIndex.new (t₀ ++ [0]) σ lvl).occs.getD c 0 +
          WaveletMatrix.rank (FMIndex.new (t₀ ++ [0]) σ lvl).bw c i) := by
      intro i
      rw [FMIndex.lf_map_checked, if_pos hclt]
    simp only [List.cons_append, backwardLoopChecked, hchk]
    by_cases hb : (FMIndex.new (t₀ ++ [0]) σ lvl).occs.getD c 0 +
        WaveletMatrix.rank (FMIndex.new (t₀ ++ [0]) σ lvl).bw c s =
      (FMIndex.new (t₀ ++ [0]) σ lvl).occs.getD c 0 +
        WaveletMatrix.rank (FMIndex.new (t₀ ++ [0]) σ lvl).bw c e
    · rw [if_pos hb]
      exact ⟨_, rfl, hb⟩
    · rw [if_neg hb]
      exact ih l₂ _ _ (fun x hx => hle x (List.mem_cons_of_mem c hx))

/-- C8 (counterexample): as stated the claim fails.  A pattern symbol
whose code exceeds the bucket table (code 4 with alphabet size 3) makes
the search panic on the out-of-bounds access `occs[c]` (modelled as
`none`) instead of producing an empty cursor. -/
theorem claim_C8_counterexample :
    (FMIndex.new [1, 2, 0] 3 0).search_backward_checked [4] = none := by
  rfl

/-- C8 (amended): a pattern symbol with the first out-of-range code `σ`
is tolerated: the search does not panic, and it returns an empty cursor;
the index itself, being immutable, stays usable.  Symbols with larger
codes panic instead (see the counterexample). -/
theorem claim_C8 (t₀ : List Nat) (σ lvl : Nat) (P₁ P₂ : List Nat)
    (hσ : ∀ x ∈ t₀ ++ [0], x < σ) (h₂ : ∀ x ∈ P₂, x ≤ σ) :
    ∃ cur, (FMIndex.new (t₀ ++ [0]) σ lvl).search_backward_checked (P₁ ++ σ :: P₂) =
        some cur ∧ cur.count = 0 := by
  have hrev : (P₁ ++ σ :: P₂).reverse = P₂.reverse ++ σ :: P₁.reverse := by
    rw [List.reverse_append, List.reverse_cons, List.append_assoc]
    simp
  obtain ⟨p, hp, heq⟩ := backwardLoopChecked_top hσ P₂.reverse P₁.reverse 0
    (FMIndex.new (t₀ ++ [0]) σ lvl).len
    (fun x hx => h₂ x (List.mem_reverse.mp hx))
  refine ⟨{ s := p.1, e := p.2, pattern := P₁ ++ σ :: P₂ }, ?_, ?_⟩
  · rw [FMIndex.search_backward_checked, hrev, hp]
    rfl
  · show p.2 - p.1 = 0
    omega

/-- C8 (witness): the amended statement for the pattern `[3]` over the
text "ab" with alphabet size 3. -/
theorem claim_C8_witness :
    (∀ x ∈ ([1, 2] : List Nat) ++ [0], x < 3) ∧
      (∃ cur, (FMIndex.new ([1, 2] ++ [0]) 3 0).search_backward_checked
          (([] : List Nat) ++ 3 :: []) = some cur ∧ cur.count = 0) :=
  ⟨by decide, claim_C8 [1, 2] 3 0 [] [] (by decide) (by decide)⟩

/-- C9: the iterators never return `None`, and after `n` steps the row
sequence of each returns to its start; the LF orbit moreover visits
every row, the single-cycle property of the BWT. -/
theorem claim_C9 (t₀ : List Nat) (σ lvl : Nat) (h0 : 0 ∉ t₀)
    (hσ : ∀ x ∈ t₀ ++ [0], x < σ) (i : Nat)
    (hi : i < (FMIndex.new (t₀ ++ [0]) σ lvl).len) :
    (∀ j, (BackwardIterator.next (FMIndex.new (t₀ ++ [0]) σ lvl) j).isSome = true) ∧
      (∀ j, (ForwardIterator.next (FMIndex.new (t₀ ++ [0]) σ lvl) j).isSome = true) ∧
      (FMIndex.new (t₀ ++ [0]) σ lvl).LF^[(FMIndex.new (t₀ ++ [0]) σ lvl).len] i = i ∧
      (FMIndex.new (t₀ ++ [0]) σ lvl).FL^[(FMIndex.new (t₀ ++ [0]) σ lvl).len] i = i ∧
      (∀ r < (FMIndex.new (t₀ ++ [0]) σ lvl).len,
        ∃ k < (FMIndex.new (t₀ ++ [0]) σ lvl).len,
          (FMIndex.new (t₀ ++ [0]) σ lvl).LF^[k] i = r) :=
  ⟨fun _ => rfl, fun _ => rfl, LF_iter_len h0 hσ hi, FL_iter_len h0 hσ hi,
    fun _ hr => LF_iter_surj h0 hσ hi hr⟩

/-- C9 (witness): the cycle laws at the text "a", row 0. -/
theorem claim_C9_witness :
    (0 ∉ ([1] : List Nat)) ∧ (∀ x ∈ ([1] : List Nat) ++ [0], x < 2) ∧
      (0 < (FMIndex.new ([1] ++ [0]) 2 0).len ∧
      ((∀ j, (BackwardIterator.next (FMIndex.new ([1] ++ [0]) 2 0) j).isSome = true) ∧
        (∀ j, (ForwardIterator.next (FMIndex.new ([1] ++ [0]) 2 0) j).isSome = true) ∧
        (FMIndex.new ([1] ++ [0]) 2 0).LF^[(FMIndex.new ([1] ++ [0]) 2 0).len] 0 = 0 ∧
        (FMIndex.new ([1] ++ [0]) 2 0).FL^[(FMIndex.new ([1] ++ [0]) 2 0).len] 0 = 0 ∧
        (∀ r < (FMIndex.new ([1] ++ [0]) 2 0).len,
          ∃ k < (FMIndex.new ([1] ++ [0]) 2 0).len,
            (FMIndex.new ([1] ++ [0]) 2 0).LF^[k] 0 = r))) :=
  ⟨by decide, by decide, by decide,
    claim_C9 [1] 2 0 (by decide) (by decide) 0 (by decide)⟩

/-- C10: for every index with a suffix-order sampler at any level and
every row `i`, the `get_sa` loop terminates within fuel `n` (at most
`n - 1` LF steps) and returns the suffix-array value of the row: the LF
orbit reaches the row whose suffix-array value is divisible by `2^level`
— at worst the row with value 0, which is sampled at every level. -/
theorem claim_C10 (t₀ : List Nat) (σ lvl : Nat) (h0 : 0 ∉ t₀)
    (hσ : ∀ x ∈ t₀ ++ [0], x < σ) (i : Nat)
    (hi : i < (FMIndex.new (t₀ ++ [0]) σ lvl).len) :
    getSaLoop (FMIndex.new (t₀ ++ [0]) σ lvl) (FMIndex.new (t₀ ++ [0]) σ lvl).len i 0 =
      some ((sais (t₀ ++ [0])).getD i 0) := by
  have hilen : i < (t₀ ++ [0]).length := by
    have := FMIndex.len_new (t₀ ++ [0]) σ lvl
    omega
  have hvlt : (sais (t₀ ++ [0])).getD i 0 < (t₀ ++ [0]).length := saD_lt hilen
  have hfuel : (sais (t₀ ++ [0])).getD i 0 % 2 ^ lvl + 1 ≤
      (FMIndex.new (t₀ ++ [0]) σ lvl).len := by
    have hmodle : (sais (t₀ ++ [0])).getD i 0 % 2 ^ lvl ≤ (sais (t₀ ++ [0])).getD i 0 :=
      Nat.mod_le _ _
    have := FMIndex.len_new (t₀ ++ [0]) σ lvl
    omega
  rw [getSaLoop_correct h0 hσ (FMIndex.new (t₀ ++ [0]) σ lvl).len i 0 hi hfuel]
  rw [Nat.add_zero, Nat.mod_eq_of_lt hvlt]

/-- C10 (witness): termination of `get_sa` on the text "ab" at level 1,
row 2. -/
theorem claim_C10_witness :
    (0 ∉ ([1, 2] : List Nat)) ∧ (∀ x ∈ ([1, 2] : List Nat) ++ [0], x < 3) ∧
      (2 < (FMIndex.new ([1, 2] ++ [0]) 3 1).len ∧
        getSaLoop (FMIndex.new ([1, 2] ++ [0]) 3 1)
            (FMIndex.new ([1, 2] ++ [0]) 3 1).len 2 0 =
          some ((sais ([1, 2] ++ [0])).getD 2 0)) :=
  ⟨by decide, by decide, by decide,
    claim_C10 [1, 2] 3 1 (by decide) (by decide) 2 (by decide)⟩
